/-
Verification of the crawl/deduplication core of `website_scraper.py`.

The development shallowly embeds the scraper:
* URL handling (`urlparse` / `urlunparse` / `normalize_url` / `is_valid_url`)
  is modelled after CPython 3.11 `urllib.parse` (`urlsplit`, `urlunsplit`,
  `_splitparams`, `_splitnetloc`), which the source calls.  The model covers
  URLs free of ASCII control characters (CPython removes TAB/CR/LF and strips
  leading C0 controls as a preprocessing step) and of bracketed IPv6 hosts
  (CPython only validates those, raising on malformed ones).
* The crawl engine (`scrape_page`, `get_all_links`, the `scrape_website`
  loop) is embedded as explicit state passing over a `Scraper` record whose
  fields mirror the Python object.  The external collaborators — the HTTP
  fetcher together with the HTML text/link extractor (`requests` +
  `BeautifulSoup`), the `urljoin` relative-link resolver and the `md5`
  hexdigest — are parameters of a `CrawlEnv`, as the spec treats them as
  black boxes.  Side effects are made observable: the list of URLs passed to
  the fetcher (`trace`), the created page records (`records`) and the
  politeness delay (`slept`) are ghost outputs updated exactly where the
  Python code performs the corresponding effect.
* The unbounded `while` loop is embedded as a fuel-indexed function
  returning `none` on fuel exhaustion; termination is a proved theorem.
-/
import Mathlib

namespace WebsiteScraper

/-- Characters allowed in a URL scheme, as CPython `urllib.parse.scheme_chars`
(`abcdefghijklmnopqrstuvwxyzABCDEFGHIJKLMNOPQRSTUVWXYZ0123456789+-.`). -/
def schemeChar (c : Char) : Bool :=
  c.isAlphanum || c = '+' || c = '-' || c = '.'

/-- Split a list at the first occurrence of `c`: returns the part before it
and, when `c` occurs, the part after it (mirrors Python `s.split(c, 1)`). -/
def breakAtChar (c : Char) : List Char → List Char × Option (List Char)
  | [] => ([], none)
  | x :: xs =>
    if x = c then ([], some xs)
    else
      let r := breakAtChar c xs
      (x :: r.1, r.2)

/-- Scheme recognition of CPython `urlsplit`: at `i = url.find(':')` with
`i > 0`, an ASCII-alphabetic first character and every character of
`url[:i]` in `scheme_chars`, the scheme is `url[:i].lower()` and the
remainder is `url[i+1:]`; otherwise there is no scheme. -/
def takeScheme (l : List Char) : Option (List Char × List Char) :=
  match breakAtChar ':' l with
  | (pre, some post) =>
    match pre with
    | [] => none
    | c :: cs =>
      if c.isAlpha && (c :: cs).all schemeChar then
        some ((c :: cs).map Char.toLower, post)
      else none
  | (_, none) => none

/-- CPython `_splitnetloc`: the netloc extends to the first `/`, `?` or `#`. -/
def splitNetloc : List Char → List Char × List Char
  | [] => ([], [])
  | x :: xs =>
    if x = '/' || x = '?' || x = '#' then ([], x :: xs)
    else
      let r := splitNetloc xs
      (x :: r.1, r.2)

/-- Split a list around its last `'/'`: `some (before, after)` with
`l = before ++ '/' :: after` and no `'/'` in `after`, or `none` when the
list has no `'/'` (used to mirror Python `url.rfind('/')`). -/
def splitAtLastSlash : List Char → Option (List Char × List Char)
  | [] => none
  | x :: xs =>
    match splitAtLastSlash xs with
    | some (b, a) => some (x :: b, a)
    | none => if x = '/' then some ([], xs) else none

/-- CPython `_splitparams`: when the path contains a `'/'`, params start at
the first `';'` at or after the last `'/'`; otherwise at the first `';'`. -/
def splitParams (p : List Char) : List Char × List Char :=
  match splitAtLastSlash p with
  | some (b, a) =>
    match breakAtChar ';' a with
    | (pre, some post) => (b ++ '/' :: pre, post)
    | (_, none) => (p, [])
  | none =>
    match breakAtChar ';' p with
    | (pre, some post) => (pre, post)
    | (_, none) => (p, [])

/-- The six components of CPython `urllib.parse.ParseResult`. -/
structure URLParts where
  scheme : List Char
  netloc : List Char
  path : List Char
  params : List Char
  query : List Char
  fragment : List Char
deriving DecidableEq

/-- CPython `urllib.parse.uses_netloc` (Python 3.11). -/
def uses_netloc : List (List Char) :=
  ["", "ftp", "http", "gopher", "nntp", "telnet", "imap", "wais", "file",
   "mms", "https", "shttp", "snews", "prospero", "rtsp", "rtsps", "rtspu",
   "rsync", "svn", "svn+ssh", "sftp", "nfs", "git", "git+ssh", "ws",
   "wss"].map String.toList

/-- CPython `urllib.parse.uses_params` (Python 3.11). -/
def uses_params : List (List Char) :=
  ["", "ftp", "hdl", "prospero", "http", "imap", "https", "shttp", "rtsp",
   "rtsps", "rtspu", "sip", "sips", "mms", "sftp", "tel"].map String.toList

/-- CPython `urlsplit` on control-character-free input: optional scheme,
optional `//`-introduced netloc, then fragment and query splits. -/
def urlsplitList (url : List Char) : URLParts :=
  let sr :=
    match takeScheme url with
    | some (s, r) => (s, r)
    | none => (([] : List Char), url)
  let nr :=
    match sr.2 with
    | '/' :: '/' :: r => splitNetloc r
    | _ => (([] : List Char), sr.2)
  let rf := breakAtChar '#' nr.2
  let fragment := rf.2.getD []
  let pq := breakAtChar '?' rf.1
  let query := pq.2.getD []
  ⟨sr.1, nr.1, pq.1, [], query, fragment⟩

/-- CPython `urlparse`: `urlsplit`, then params split off the path when the
scheme uses params and the path contains a `';'`. -/
def urlparseList (url : List Char) : URLParts :=
  let v := urlsplitList url
  if v.scheme ∈ uses_params ∧ ';' ∈ v.path then
    let pp := splitParams v.path
    { v with path := pp.1, params := pp.2 }
  else v

/-- CPython 3.11 `urlunsplit`. -/
def urlunsplitList (scheme netloc path query fragment : List Char) : List Char :=
  let url1 :=
    if netloc ≠ [] ∨ (scheme ≠ [] ∧ scheme ∈ uses_netloc ∧ path.take 2 ≠ ['/', '/']) then
      '/' :: '/' :: (netloc ++ (if path ≠ [] ∧ path.head? ≠ some '/' then '/' :: path else path))
    else path
  let url2 := if scheme ≠ [] then scheme ++ ':' :: url1 else url1
  let url3 := if query ≠ [] then url2 ++ '?' :: query else url2
  if fragment ≠ [] then url3 ++ '#' :: fragment else url3

/-- CPython `urlunparse`: params are rejoined to the path with `';'`. -/
def urlunparseList (p : URLParts) : List Char :=
  urlunsplitList p.scheme p.netloc
    (if p.params ≠ [] then p.path ++ ';' :: p.params else p.path) p.query p.fragment

/-- `urllib.parse.urlparse` on a Lean string. -/
def urlparse (url : String) : URLParts :=
  urlparseList url.toList

/-- `urllib.parse.urlunparse` producing a Lean string. -/
def urlunparse (p : URLParts) : String :=
  String.mk (urlunparseList p)

/-- Source `WebsiteScraper.normalize_url`:
`urlunparse(urlparse(url)._replace(query="", fragment=""))`. -/
def normalize_url (url : String) : String :=
  urlunparse { urlparse url with query := [], fragment := [] }

/-- Source `WebsiteScraper.is_valid_url`:
`bool(parsed.netloc) and parsed.netloc == self.domain`. -/
def is_valid_url (domain : List Char) (url : String) : Bool :=
  let parsed := urlparse url
  decide (parsed.netloc ≠ [] ∧ parsed.netloc = domain)

/-- Does `needle` occur as a contiguous sublist of the second argument?
(Python's `in` operator on strings.) -/
def hasSubList (needle : List Char) : List Char → Bool
  | [] => needle.isEmpty
  | c :: cs => needle.isPrefixOf (c :: cs) || hasSubList needle cs

/-- Python `needle in hay` for strings. -/
def strContains (hay needle : String) : Bool :=
  hasSubList needle.toList hay.toList

/-- Python `s.lower()` restricted to basic-latin letters (all the source
applies it to are ASCII content-type headers and URL schemes). -/
def strToLower (s : String) : String :=
  ⟨s.toList.map Char.toLower⟩

/-- Python `s.startswith(pre)`. -/
def strStartsWith (s pre : String) : Bool :=
  pre.toList.isPrefixOf s.toList

/-- Python `not text.strip()` over the whitespace characters space, TAB, CR
and LF: true iff the text is empty or whitespace-only. -/
def text_blank (s : String) : Bool :=
  s.toList.all Char.isWhitespace

/-- Outcome of fetching one URL, as seen by `scrape_page`: either the
`requests.get` + `raise_for_status` pipeline raised (timeout, non-2xx HTTP
status, network error — all caught by the bare `except`), or it produced a
response with a content type from which BeautifulSoup extraction yields the
plain text (`extract_text`) and the raw anchor `href` values of the page.
Fetcher and extractor are the spec's external collaborators, so one oracle
models both. -/
inductive FetchOutcome where
  | failure
  | success (contentType : String) (text : String) (hrefs : List String)

/-- The external collaborators of the crawl engine: the fetch/extract
oracle, `urllib.parse.urljoin` for relative links, and the `hashlib.md5`
hexdigest used for content hashes. -/
structure CrawlEnv where
  fetch : String → FetchOutcome
  urljoin : String → String → String
  md5hex : String → String

/-- The mutable state of the Python `WebsiteScraper` object.  The Python
sets `visited_urls` and `text_hashes` are embedded as duplicate-free lists
in insertion order (every insertion in the source is guarded by a
membership test). -/
structure Scraper where
  base_url : String
  domain : List Char
  visited_urls : List String
  text_hashes : List String
  text_content : List String
  max_pages : Nat
deriving DecidableEq

/-- Source `WebsiteScraper.__init__`: the domain is the netloc of the base
URL, all collections start empty. -/
def Scraper.init (base_url : String) (max_pages : Nat) : Scraper :=
  ⟨base_url, (urlparse base_url).netloc, [], [], [], max_pages⟩

/-- A crawl in progress: the scraper state plus two ghost observations of
side effects — `trace` records every URL passed to `scrape_page` (i.e.
every fetch attempt) in order, and `records` mirrors each created
PageRecord as the pair (normalized URL, extracted text). -/
structure CrawlRun where
  scraper : Scraper
  trace : List String
  records : List (String × String)
deriving DecidableEq

/-- Result of one iteration of the crawl loop body: the updated run, the
links the iteration appends to the frontier tail, and whether the
politeness delay `time.sleep(0.5)` was executed in that iteration. -/
structure StepResult where
  run : CrawlRun
  new_links : List String
  slept : Bool
deriving DecidableEq

/-- Source `WebsiteScraper.get_all_links`: each anchor `href` that does not
start with `http` is resolved against the page URL with `urljoin`; the
result is normalized, and kept iff it is in scope and not yet visited. -/
def get_all_links (env : CrawlEnv) (sc : Scraper) (hrefs : List String)
    (page_url : String) : List String :=
  hrefs.foldl
    (fun links href =>
      let link := if strStartsWith href "http" then href else env.urljoin page_url href
      let normalized := normalize_url link
      if is_valid_url sc.domain normalized = true ∧ normalized ∉ sc.visited_urls then
        links ++ [normalized]
      else links)
    []

/-- Source `WebsiteScraper.scrape_page`: on any fetch exception return
`([], "")`; on a content type not containing `text/html` (lowercased)
return `([], "")`; otherwise return the discovered in-scope links and the
extracted text. -/
def scrape_page (env : CrawlEnv) (sc : Scraper) (url : String) :
    List String × String :=
  match env.fetch url with
  | .failure => ([], "")
  | .success contentType text hrefs =>
    if strContains (strToLower contentType) "text/html" then
      (get_all_links env sc hrefs url, text)
    else ([], "")

/-- The accumulated block for one page:
`f"\n\n=== {normalized_url} ===\n{text}"`. -/
def page_content (normalized_url text : String) : String :=
  "\n\n=== " ++ normalized_url ++ " ===\n" ++ text

/-- `self.visited_urls.add(normalized_url)` (always guarded by a membership
test in the source, hence plain append). -/
def mark_visited (sc : Scraper) (normalized_url : String) : Scraper :=
  { sc with visited_urls := sc.visited_urls ++ [normalized_url] }

/-- `self.text_hashes.add(content_hash)` followed by
`self.text_content.append(page_content)` (the hash add is guarded by a
membership test in the source, hence plain append). -/
def add_record (sc : Scraper) (content_hash page : String) : Scraper :=
  { sc with text_hashes := sc.text_hashes ++ [content_hash],
            text_content := sc.text_content ++ [page] }

/-- The body of one iteration of the `scrape_website` while loop, given the
dequeued `url`: normalize; skip if already visited; mark visited; scrape;
skip on blank text; skip on duplicate content hash; otherwise record the
page, sleep, and hand the page's links back for `urls_to_visit.extend`. -/
def process_url (env : CrawlEnv) (run : CrawlRun) (url : String) : StepResult :=
  let normalized_url := normalize_url url
  if normalized_url ∈ run.scraper.visited_urls then
    ⟨run, [], false⟩
  else
    let sc1 := mark_visited run.scraper normalized_url
    let res := scrape_page env sc1 url
    let run1 : CrawlRun := ⟨sc1, run.trace ++ [url], run.records⟩
    if text_blank res.2 then ⟨run1, [], false⟩
    else
      let content_hash := env.md5hex res.2
      if content_hash ∈ run1.scraper.text_hashes then ⟨run1, [], false⟩
      else
        ⟨⟨add_record sc1 content_hash (page_content normalized_url res.2),
          run1.trace, run1.records ++ [(normalized_url, res.2)]⟩,
         res.1, true⟩

/-- Source `WebsiteScraper.scrape_website` while loop:
`while urls_to_visit and len(self.visited_urls) < self.max_pages`, dequeue
from the front, run the body, extend the frontier tail with the body's
links.  Fuel-indexed: `none` means the fuel ran out before the loop
exited (termination is proved separately). -/
def crawl_loop (env : CrawlEnv) : Nat → CrawlRun → List String → Option CrawlRun
  | 0, _, _ => none
  | fuel + 1, run, frontier =>
    match frontier with
    | [] => some run
    | url :: rest =>
      if run.scraper.visited_urls.length < run.scraper.max_pages then
        let s := process_url env run url
        crawl_loop env fuel s.run (rest ++ s.new_links)
      else some run

/-- Source `WebsiteScraper.scrape_website`: run the loop from the frontier
`[self.base_url]` with empty ghost observations. -/
def scrape_website (env : CrawlEnv) (fuel : Nat) (sc : Scraper) : Option CrawlRun :=
  crawl_loop env fuel ⟨sc, [], []⟩ [sc.base_url]

/-! Predicates used by the invariant statements. -/

/-- The delimiter test of `_splitnetloc`. -/
def stopChar (c : Char) : Bool :=
  c = '/' || c = '?' || c = '#'

/-- Shape of a scheme produced by `takeScheme`: nonempty, ASCII-alphabetic
first character, only scheme characters, already lowercased. -/
def SchemeOK (s : List Char) : Prop :=
  (∃ c cs, s = c :: cs ∧ c.isAlpha = true) ∧
  (∀ x ∈ s, schemeChar x = true) ∧ s.map Char.toLower = s

/-- Relation between the ghost record list and the scraper's accumulation
fields: the hash set lists exactly the hashes of the recorded texts (in
order, without duplicates) and `text_content` lists exactly the formatted
blocks of the records. -/
def RecInv (env : CrawlEnv) (run : CrawlRun) : Prop :=
  run.scraper.text_hashes = run.records.map (fun r => env.md5hex r.2) ∧
  run.scraper.text_hashes.Nodup ∧
  run.scraper.text_content = run.records.map (fun r => page_content r.1 r.2)

/-- Relation between the ghost fetch trace and the visited set: no two
fetched URLs share a normalization, and every fetched URL's normalization
has been marked visited. -/
def TraceInv (run : CrawlRun) : Prop :=
  (run.trace.map normalize_url).Nodup ∧
  ∀ u ∈ run.trace, normalize_url u ∈ run.scraper.visited_urls

/-! Concrete fixtures used by witnesses: a tiny four-page site.  The hash
oracle is instantiated with the identity function (every theorem below is
proved for an arbitrary `md5hex`, so any stand-in works for evaluation). -/

/-- Stand-in content hash for witnesses. -/
def idHash : String → String := fun s => s

/-- Stand-in `urljoin` for witnesses (string append). -/
def joinPlain : String → String → String := fun base rel => base ++ rel

/-- A small deterministic site: the seed page links to two query-variants
of `/a` and to `/c`; `/a` repeats the seed's text and links to `/d`;
everything else fails to fetch. -/
def demoSite : String → FetchOutcome
  | "https://example.com" =>
    .success "text/html" "hello world"
      ["https://example.com/a?x=1", "https://example.com/a?x=2",
       "https://example.com/c", "https://other.com/z"]
  | "https://example.com/a" =>
    .success "text/html" "hello world" ["https://example.com/d"]
  | "https://example.com/c" => .success "text/html" "unique c" []
  | "https://example.com/d" => .success "text/html" "unique d" []
  | _ => .failure

/-- Witness environment built from the demo site. -/
def demoEnv : CrawlEnv := ⟨demoSite, joinPlain, idHash⟩

/-- Witness environment in which every fetch fails. -/
def failEnv : CrawlEnv := ⟨fun _ => FetchOutcome.failure, joinPlain, idHash⟩

/-- Witness scraper freshly initialized on the demo domain. -/
def demoScraper : Scraper := Scraper.init "https://example.com" 1000

/-- The crawl state after the full demo-site crawl (fuel 5). -/
def demoRun : CrawlRun :=
  ⟨⟨"https://example.com", "example.com".toList,
    ["https://example.com", "https://example.com/a", "https://example.com/c"],
    ["hello world", "unique c"],
    ["\n\n=== https://example.com ===\nhello world",
     "\n\n=== https://example.com/c ===\nunique c"], 1000⟩,
   ["https://example.com", "https://example.com/a", "https://example.com/c"],
   [("https://example.com", "hello world"), ("https://example.com/c", "unique c")]⟩

/-- The crawl state after the demo crawl with page budget 1 (fuel 2). -/
def oneRun : CrawlRun :=
  ⟨⟨"https://example.com", "example.com".toList, ["https://example.com"],
    ["hello world"], ["\n\n=== https://example.com ===\nhello world"], 1⟩,
   ["https://example.com"], [("https://example.com", "hello world")]⟩

/-- The crawl state after crawling the seed against `failEnv` (fuel 2). -/
def failRun : CrawlRun :=
  ⟨⟨"https://example.com", "example.com".toList, ["https://example.com"], [], [], 1000⟩,
   ["https://example.com"], []⟩

/-- A mid-crawl state in which the seed page's text has already been
recorded, so the duplicate-text page `/a` is about to be dropped. -/
def runC1 : CrawlRun :=
  ⟨⟨"https://example.com", "example.com".toList, ["https://example.com"],
    ["hello world"], ["\n\n=== https://example.com ===\nhello world"], 1000⟩,
   ["https://example.com"], [("https://example.com", "hello world")]⟩

/-! Character-level facts, bridging `Char` comparisons to `Nat` ones. -/

theorem uint32_le_iff (a b : UInt32) : a ≤ b ↔ a.toNat ≤ b.toNat := by
  rw [UInt32.le_def, BitVec.le_def]; rfl

theorem char_eq_of_toNat_eq {c d : Char} (h : c.toNat = d.toNat) : c = d :=
  Char.ext (UInt32.toNat.inj h)

theorem char_eq_iff_toNat {c d : Char} : c = d ↔ c.toNat = d.toNat :=
  ⟨fun h => h ▸ rfl, char_eq_of_toNat_eq⟩

theorem char_isAlpha_iff (c : Char) :
    c.isAlpha = true ↔ (65 ≤ c.toNat ∧ c.toNat ≤ 90) ∨ (97 ≤ c.toNat ∧ c.toNat ≤ 122) := by
  have e65 : (65 : UInt32).toNat = 65 := rfl
  have e90 : (90 : UInt32).toNat = 90 := rfl
  have e97 : (97 : UInt32).toNat = 97 := rfl
  have e122 : (122 : UInt32).toNat = 122 := rfl
  simp only [Char.isAlpha, Char.isUpper, Char.isLower, Bool.or_eq_true, Bool.and_eq_true,
    decide_eq_true_eq, ge_iff_le, uint32_le_iff, Char.toNat, e65, e90, e97, e122]

theorem schemeChar_iff (c : Char) :
    schemeChar c = true ↔
      (65 ≤ c.toNat ∧ c.toNat ≤ 90) ∨ (97 ≤ c.toNat ∧ c.toNat ≤ 122) ∨
      (48 ≤ c.toNat ∧ c.toNat ≤ 57) ∨ c.toNat = 43 ∨ c.toNat = 45 ∨ c.toNat = 46 := by
  have h43 : ('+' : Char).val.toNat = 43 := rfl
  have h45 : ('-' : Char).val.toNat = 45 := rfl
  have h46 : ('.' : Char).val.toNat = 46 := rfl
  have e48 : (48 : UInt32).toNat = 48 := rfl
  have e57 : (57 : UInt32).toNat = 57 := rfl
  simp only [schemeChar, Char.isAlphanum, Char.isDigit, Bool.or_eq_true, Bool.and_eq_true,
    decide_eq_true_eq, ge_iff_le, uint32_le_iff, char_isAlpha_iff, char_eq_iff_toNat,
    h43, h45, h46, Char.toNat, e48, e57]
  omega

theorem char_toNat_ofNat_valid {n : Nat} (h : n.isValidChar) :
    (Char.ofNat n).toNat = n := by
  rw [Char.ofNat, dif_pos h]; rfl

theorem char_toLower_of_upper {c : Char} (h : 65 ≤ c.toNat ∧ c.toNat ≤ 90) :
    c.toLower.toNat = c.toNat + 32 := by
  have hv : (c.toNat + 32).isValidChar := Or.inl (by omega)
  unfold Char.toLower
  rw [if_pos h]
  exact char_toNat_ofNat_valid hv

theorem char_toLower_of_not_upper {c : Char} (h : ¬(65 ≤ c.toNat ∧ c.toNat ≤ 90)) :
    c.toLower = c := by
  unfold Char.toLower
  rw [if_neg h]

theorem char_toLower_cases (c : Char) :
    c.toLower = c ∨ (97 ≤ c.toLower.toNat ∧ c.toLower.toNat ≤ 122) := by
  by_cases h : 65 ≤ c.toNat ∧ c.toNat ≤ 90
  · right
    rw [char_toLower_of_upper h]
    omega
  · left
    exact char_toLower_of_not_upper h

theorem char_toLower_toLower (c : Char) : c.toLower.toLower = c.toLower := by
  rcases char_toLower_cases c with h | h
  · rw [h, h]
  · exact char_toLower_of_not_upper (by omega)

theorem char_toLower_isAlpha {c : Char} (h : c.isAlpha = true) :
    c.toLower.isAlpha = true := by
  rcases (char_isAlpha_iff c).mp h with hu | hl
  · rw [char_isAlpha_iff, char_toLower_of_upper hu]
    right; omega
  · rw [char_toLower_of_not_upper (by omega)]
    exact h

theorem schemeChar_toLower {c : Char} (h : schemeChar c = true) :
    schemeChar c.toLower = true := by
  rcases (schemeChar_iff c).mp h with hu | rest
  · rw [schemeChar_iff, char_toLower_of_upper hu]
    right; left; omega
  · rw [char_toLower_of_not_upper (by omega)]
    exact h

theorem schemeChar_ne_delims {c : Char} (h : schemeChar c = true) :
    c ≠ ':' ∧ c ≠ '/' ∧ c ≠ '?' ∧ c ≠ '#' := by
  have hn := (schemeChar_iff c).mp h
  have d1 : (':' : Char).toNat = 58 := rfl
  have d2 : ('/' : Char).toNat = 47 := rfl
  have d3 : ('?' : Char).toNat = 63 := rfl
  have d4 : ('#' : Char).toNat = 35 := rfl
  refine ⟨fun he => ?_, fun he => ?_, fun he => ?_, fun he => ?_⟩ <;>
    (rw [char_eq_iff_toNat] at he; omega)

theorem map_toLower_idem (l : List Char) :
    (l.map Char.toLower).map Char.toLower = l.map Char.toLower := by
  induction l with
  | nil => rfl
  | cons c cs ih => simp [char_toLower_toLower, ih]

/-! Specifications of the splitting helpers. -/

theorem breakAtChar_of_not_mem {c : Char} {l : List Char} (h : c ∉ l) :
    breakAtChar c l = (l, none) := by
  induction l with
  | nil => rfl
  | cons x xs ih =>
    simp only [List.mem_cons, not_or] at h
    simp [breakAtChar, Ne.symm h.1, ih h.2]

theorem breakAtChar_none_spec {c : Char} {l pre : List Char}
    (h : breakAtChar c l = (pre, none)) : pre = l ∧ c ∉ l := by
  induction l generalizing pre with
  | nil =>
    simp only [breakAtChar, Prod.mk.injEq] at h
    simp [← h.1]
  | cons x xs ih =>
    by_cases hx : x = c
    · simp [breakAtChar, hx] at h
    · obtain ⟨pre', o, hb⟩ : ∃ q o, breakAtChar c xs = (q, o) := ⟨_, _, rfl⟩
      simp only [breakAtChar, if_neg hx, hb, Prod.mk.injEq] at h
      obtain ⟨h1, h2⟩ := h
      subst h2
      obtain ⟨h3, h4⟩ := ih hb
      subst h3
      refine ⟨h1.symm, ?_⟩
      simp only [List.mem_cons, not_or]
      exact ⟨fun he => hx he.symm, h4⟩

theorem breakAtChar_some_spec {c : Char} {l pre post : List Char}
    (h : breakAtChar c l = (pre, some post)) : l = pre ++ c :: post ∧ c ∉ pre := by
  induction l generalizing pre post with
  | nil => simp [breakAtChar] at h
  | cons x xs ih =>
    by_cases hx : x = c
    · simp only [breakAtChar, if_pos hx, Prod.mk.injEq, Option.some.injEq] at h
      obtain ⟨h1, h2⟩ := h
      subst hx
      subst h2
      rw [← h1]
      simp
    · obtain ⟨pre', o, hb⟩ : ∃ q o, breakAtChar c xs = (q, o) := ⟨_, _, rfl⟩
      simp only [breakAtChar, if_neg hx, hb, Prod.mk.injEq] at h
      obtain ⟨h1, h2⟩ := h
      subst h2
      obtain ⟨h3, h4⟩ := ih hb
      rw [← h1]
      constructor
      · rw [h3]
        rfl
      · simp only [List.mem_cons, not_or]
        exact ⟨fun he => hx he.symm, h4⟩

theorem breakAtChar_append {c : Char} {pre post : List Char} (h : c ∉ pre) :
    breakAtChar c (pre ++ c :: post) = (pre, some post) := by
  induction pre with
  | nil => simp [breakAtChar]
  | cons x xs ih =>
    simp only [List.mem_cons, not_or] at h
    simp [breakAtChar, Ne.symm h.1, ih h.2]

theorem splitNetloc_spec (l : List Char) :
    l = (splitNetloc l).1 ++ (splitNetloc l).2 ∧
    (∀ x ∈ (splitNetloc l).1, stopChar x = false) ∧
    ((splitNetloc l).2 = [] ∨
      ∃ y t, (splitNetloc l).2 = y :: t ∧ stopChar y = true) := by
  induction l with
  | nil => simp [splitNetloc]
  | cons x xs ih =>
    by_cases hx : stopChar x = true
    · refine ⟨?_, ?_, Or.inr ⟨x, xs, ?_, hx⟩⟩ <;> simp [splitNetloc, stopChar] at hx ⊢ <;>
        simp [hx]
    · have hx' : stopChar x = false := by revert hx; cases stopChar x <;> simp
      have hcond : (x = '/' || x = '?' || x = '#') = false := hx'
      refine ⟨?_, ?_, ?_⟩
      · simpa [splitNetloc, hcond] using ih.1
      · intro y hy
        simp only [splitNetloc, hcond, Bool.false_eq_true, if_false, List.mem_cons] at hy
        rcases hy with rfl | hy
        · exact hx'
        · exact ih.2.1 y hy
      · simpa [splitNetloc, hcond] using ih.2.2

theorem splitNetloc_append {n r : List Char} (hn : ∀ x ∈ n, stopChar x = false)
    (hr : r = [] ∨ ∃ y t, r = y :: t ∧ stopChar y = true) :
    splitNetloc (n ++ r) = (n, r) := by
  induction n with
  | nil =>
    rcases hr with rfl | ⟨y, t, rfl, hy⟩
    · rfl
    · have : (y = '/' || y = '?' || y = '#') = true := hy
      simp [splitNetloc, this]
  | cons x xs ih =>
    have hx : stopChar x = false := hn x (List.mem_cons_self x xs)
    have hcond : (x = '/' || x = '?' || x = '#') = false := hx
    have := ih (fun y hy => hn y (List.mem_cons_of_mem x hy))
    simp [splitNetloc, hcond, this]

theorem splitAtLastSlash_of_not_mem {l : List Char} (h : '/' ∉ l) :
    splitAtLastSlash l = none := by
  induction l with
  | nil => rfl
  | cons x xs ih =>
    simp only [List.mem_cons, not_or] at h
    simp [splitAtLastSlash, ih h.2, Ne.symm h.1]

theorem splitAtLastSlash_none {l : List Char} (h : splitAtLastSlash l = none) :
    '/' ∉ l := by
  induction l with
  | nil => simp
  | cons x xs ih =>
    rcases hx : splitAtLastSlash xs with _ | pr
    · simp only [splitAtLastSlash, hx] at h
      by_cases hs : x = '/'
      · simp [if_pos hs] at h
      · simp only [List.mem_cons, not_or]
        exact ⟨fun he => hs (Eq.symm he), ih hx⟩
    · simp [splitAtLastSlash, hx] at h

theorem splitAtLastSlash_some {l b a : List Char}
    (h : splitAtLastSlash l = some (b, a)) : l = b ++ '/' :: a ∧ '/' ∉ a := by
  induction l generalizing b a with
  | nil => simp [splitAtLastSlash] at h
  | cons x xs ih =>
    rcases hx : splitAtLastSlash xs with _ | ⟨b', a'⟩
    · simp only [splitAtLastSlash, hx] at h
      by_cases hs : x = '/'
      · simp only [if_pos hs, Option.some.injEq, Prod.mk.injEq] at h
        subst hs
        refine ⟨by simp [← h.1, ← h.2], ?_⟩
        rw [← h.2]
        exact splitAtLastSlash_none hx
      · simp [if_neg hs] at h
    · simp only [splitAtLastSlash, hx, Option.some.injEq, Prod.mk.injEq] at h
      obtain ⟨h1, h2⟩ := ih hx
      refine ⟨?_, by rw [← h.2]; exact h2⟩
      rw [← h.1, ← h.2, h1]
      rfl

theorem splitAtLastSlash_append {b a : List Char} (h : '/' ∉ a) :
    splitAtLastSlash (b ++ '/' :: a) = some (b, a) := by
  induction b with
  | nil => simp [splitAtLastSlash, splitAtLastSlash_of_not_mem h]
  | cons x xs ih => simp [splitAtLastSlash, ih]

theorem splitParams_spec (p : List Char) :
    p = (splitParams p).1 ++ ';' :: (splitParams p).2 ∨
    ((splitParams p).2 = [] ∧ (splitParams p).1 = p) := by
  rcases hl : splitAtLastSlash p with _ | ⟨b, a⟩
  · rcases hb : breakAtChar ';' p with ⟨pre, _ | post⟩
    · right
      simp [splitParams, hl, hb]
    · left
      simp only [splitParams, hl, hb]
      exact (breakAtChar_some_spec hb).1
  · rcases hb : breakAtChar ';' a with ⟨pre, _ | post⟩
    · right
      simp [splitParams, hl, hb]
    · left
      simp only [splitParams, hl, hb]
      obtain ⟨hp, _⟩ := splitAtLastSlash_some hl
      obtain ⟨ha, _⟩ := breakAtChar_some_spec hb
      rw [hp, ha]
      simp

theorem splitParams_drop_semi {p a : List Char}
    (h : splitParams p = (a, [])) (he : p = a ++ [';']) : splitParams a = (a, []) := by
  have h1 := congrArg Prod.fst h
  rcases hl : splitAtLastSlash p with _ | ⟨b0, a0⟩
  · rcases hb : breakAtChar ';' p with ⟨pre, _ | post⟩
    · simp only [splitParams, hl, hb] at h1
      rw [← h1] at he
      exact absurd (congrArg List.length he) (by simp)
    · simp only [splitParams, hl, hb] at h1
      obtain ⟨hp, hpre⟩ := breakAtChar_some_spec hb
      have hpa : '/' ∉ p := splitAtLastSlash_none hl
      have ha : '/' ∉ a := by
        rw [← h1]
        intro hm
        exact hpa (hp ▸ List.mem_append_left _ hm)
      have hsemi : ';' ∉ a := by
        rw [← h1]
        exact hpre
      simp [splitParams, splitAtLastSlash_of_not_mem ha, breakAtChar_of_not_mem hsemi]
  · rcases hb : breakAtChar ';' a0 with ⟨pre, _ | post⟩
    · simp only [splitParams, hl, hb] at h1
      rw [← h1] at he
      exact absurd (congrArg List.length he) (by simp)
    · simp only [splitParams, hl, hb] at h1
      obtain ⟨hp, hslash⟩ := splitAtLastSlash_some hl
      obtain ⟨ha0, hpre⟩ := breakAtChar_some_spec hb
      have hpre_slash : '/' ∉ pre := fun hm => hslash (ha0 ▸ List.mem_append_left _ hm)
      have hsplit : splitAtLastSlash a = some (b0, pre) := by
        rw [← h1]
        exact splitAtLastSlash_append hpre_slash
      simp [splitParams, hsplit, breakAtChar_of_not_mem hpre]

theorem splitParams_mem {p : List Char} {x : Char} :
    (x ∈ (splitParams p).1 → x ∈ p) ∧ (x ∈ (splitParams p).2 → x ∈ p) := by
  rcases splitParams_spec p with h | ⟨h2, h1⟩
  · constructor
    · intro hm; rw [h]; exact List.mem_append_left _ hm
    · intro hm; rw [h]; exact List.mem_append_right _ (List.mem_cons_of_mem _ hm)
  · constructor
    · intro hm; rw [← h1]; exact hm
    · intro hm; rw [h2] at hm; simp at hm

/-! Specification of `takeScheme`. -/

theorem takeScheme_some {l s r : List Char} (h : takeScheme l = some (s, r)) :
    ∃ pre, l = pre ++ ':' :: r ∧ s = pre.map Char.toLower ∧
      (∀ x ∈ pre, schemeChar x = true) ∧
      (∃ c cs, pre = c :: cs ∧ c.isAlpha = true) ∧ SchemeOK s := by
  rcases hb : breakAtChar ':' l with ⟨pre, _ | post⟩
  · simp [takeScheme, hb] at h
  · rcases pre with _ | ⟨c, cs⟩
    · simp [takeScheme, hb] at h
    · simp only [takeScheme, hb] at h
      split at h
      case isTrue hc =>
        simp only [Option.some.injEq, Prod.mk.injEq] at h
        obtain ⟨hs, hr⟩ := h
        subst hr
        rw [Bool.and_eq_true, List.all_eq_true] at hc
        obtain ⟨hl, _⟩ := breakAtChar_some_spec hb
        refine ⟨c :: cs, hl, hs.symm, fun x hx => hc.2 x hx, ⟨c, cs, rfl, hc.1⟩, ?_, ?_, ?_⟩
        · refine ⟨c.toLower, cs.map Char.toLower, by rw [← hs, List.map_cons], ?_⟩
          exact char_toLower_isAlpha hc.1
        · intro x hx
          rw [← hs] at hx
          obtain ⟨y, hy, hxy⟩ := List.mem_map.mp hx
          rw [← hxy]
          exact schemeChar_toLower (hc.2 y hy)
        · rw [← hs]
          exact map_toLower_idem (c :: cs)
      case isFalse hc => simp at h

theorem takeScheme_build {s r : List Char} (hok : SchemeOK s) :
    takeScheme (s ++ ':' :: r) = some (s, r) := by
  obtain ⟨⟨c, cs, hs, hca⟩, hall, hidem⟩ := hok
  have hcolon : ':' ∉ s := fun hm => (schemeChar_ne_delims (hall _ hm)).1 rfl
  have hb := @breakAtChar_append ':' s r hcolon
  subst hs
  have hb' : breakAtChar ':' (c :: (cs ++ ':' :: r)) = (c :: cs, some r) := by
    rw [← List.cons_append]
    exact hb
  have hcond : (c.isAlpha && (c :: cs).all schemeChar) = true := by
    rw [Bool.and_eq_true, List.all_eq_true]
    exact ⟨hca, fun x hx => hall x hx⟩
  simp only [takeScheme, hb]
  rw [if_pos hcond, hidem]

theorem takeScheme_none_cons {c : Char} {t : List Char} (h : c.isAlpha = false) :
    takeScheme (c :: t) = none := by
  rcases hb : breakAtChar ':' (c :: t) with ⟨pre, _ | post⟩
  · simp [takeScheme, hb]
  · obtain ⟨hl, hpre⟩ := breakAtChar_some_spec hb
    rcases pre with _ | ⟨x, xs⟩
    · simp [takeScheme, hb]
    · simp only [List.cons_append, List.cons.injEq] at hl
      obtain ⟨hcx, _⟩ := hl
      subst hcx
      simp [takeScheme, hb, h]

theorem takeScheme_none_append {p q : List Char} (h : takeScheme (p ++ q) = none) :
    takeScheme p = none := by
  rcases hp : takeScheme p with _ | ⟨s, r⟩
  · rfl
  · exfalso
    obtain ⟨pre, hl, hs, hall, ⟨c, cs, hcc, hca⟩, hok⟩ := takeScheme_some hp
    have hcolon : ':' ∉ pre := fun hm => (schemeChar_ne_delims (hall _ hm)).1 rfl
    have hb : breakAtChar ':' (p ++ q) = (pre, some (r ++ q)) := by
      rw [hl, List.append_assoc]
      exact breakAtChar_append hcolon
    subst hcc
    have hcond : (c.isAlpha && (c :: cs).all schemeChar) = true := by
      rw [Bool.and_eq_true, List.all_eq_true]
      exact ⟨hca, fun x hx => hall x hx⟩
    simp only [takeScheme, hb] at h
    simp only [Bool.and_eq_true, List.all_eq_true] at h
    rw [if_pos ⟨hca, hall⟩] at h
    exact absurd h (by simp)

/-! Facts about the parse pipeline stages. -/

theorem breakAtChar_fst_not_mem (c : Char) (t : List Char) :
    c ∉ (breakAtChar c t).1 := by
  rcases hb : breakAtChar c t with ⟨pre, _ | post⟩
  · exact (breakAtChar_none_spec hb).2.imp fun h => (breakAtChar_none_spec hb).1 ▸ h
  · exact (breakAtChar_some_spec hb).2

theorem breakAtChar_fst_subset {c x : Char} {t : List Char}
    (h : x ∈ (breakAtChar c t).1) : x ∈ t := by
  rcases hb : breakAtChar c t with ⟨pre, _ | post⟩
  · rw [hb] at h
    rw [← (breakAtChar_none_spec hb).1]
    exact h
  · rw [hb] at h
    rw [(breakAtChar_some_spec hb).1]
    exact List.mem_append_left _ h

theorem path_shape_of_stop {t1 : List Char}
    (h : t1 = [] ∨ ∃ y t, t1 = y :: t ∧ stopChar y = true) :
    (breakAtChar '?' (breakAtChar '#' t1).1).1 = [] ∨
    (breakAtChar '?' (breakAtChar '#' t1).1).1.head? = some '/' := by
  rcases h with rfl | ⟨y, t, rfl, hy⟩
  · left; rfl
  · have hy3 : y = '/' ∨ y = '?' ∨ y = '#' := by
      have hh := hy
      simp only [stopChar, Bool.or_eq_true, decide_eq_true_eq] at hh
      tauto
    rcases hy3 with rfl | rfl | rfl
    · right
      have h1 : (breakAtChar '#' ('/' :: t)).1 = '/' :: (breakAtChar '#' t).1 := by
        simp [breakAtChar]
      rw [h1]
      have h2 : (breakAtChar '?' ('/' :: (breakAtChar '#' t).1)).1 =
          '/' :: (breakAtChar '?' (breakAtChar '#' t).1).1 := by
        simp [breakAtChar]
      rw [h2]
      rfl
    · left
      have h1 : (breakAtChar '#' ('?' :: t)).1 = '?' :: (breakAtChar '#' t).1 := by
        simp [breakAtChar]
      rw [h1]
      simp [breakAtChar]
    · left
      simp [breakAtChar]

theorem takeScheme_of_shape {p : List Char} (h : p = [] ∨ p.head? = some '/') :
    takeScheme p = none := by
  rcases h with rfl | hh
  · rfl
  · rcases p with _ | ⟨c, t⟩
    · rfl
    · simp only [List.head?_cons, Option.some.injEq] at hh
      subst hh
      exact takeScheme_none_cons (by decide)

theorem takeScheme_none_break {c : Char} {l : List Char} (h : takeScheme l = none) :
    takeScheme (breakAtChar c l).1 = none := by
  rcases hb : breakAtChar c l with ⟨pre, _ | post⟩
  · rw [(breakAtChar_none_spec hb).1]
    exact h
  · rw [(breakAtChar_some_spec hb).1] at h
    exact takeScheme_none_append h

theorem urlsplitList_facts (l : List Char) :
    ('#' ∉ (urlsplitList l).path ∧ '?' ∉ (urlsplitList l).path) ∧
    (∀ x ∈ (urlsplitList l).netloc, stopChar x = false) ∧
    ((urlsplitList l).scheme = [] ∨ SchemeOK (urlsplitList l).scheme) ∧
    ((urlsplitList l).netloc ≠ [] →
      (urlsplitList l).path = [] ∨ (urlsplitList l).path.head? = some '/') ∧
    ((urlsplitList l).scheme = [] → (urlsplitList l).netloc = [] →
      takeScheme (urlsplitList l).path = none) ∧
    (urlsplitList l).params = [] := by
  rcases hts : takeScheme l with _ | ⟨s0, r0⟩
  · simp only [urlsplitList, hts]
    split
    · refine ⟨⟨?_, ?_⟩, (splitNetloc_spec _).2.1, Or.inl (by trivial), fun _ => ?_,
        fun _ _ => ?_, by trivial⟩
      · exact fun hm => breakAtChar_fst_not_mem '#' _ (breakAtChar_fst_subset hm)
      · exact breakAtChar_fst_not_mem '?' _
      · exact path_shape_of_stop (splitNetloc_spec _).2.2
      · exact takeScheme_of_shape (path_shape_of_stop (splitNetloc_spec _).2.2)
    · refine ⟨⟨?_, ?_⟩, by simp, Or.inl (by trivial), by simp, fun _ _ => ?_, by trivial⟩
      · exact fun hm => breakAtChar_fst_not_mem '#' _ (breakAtChar_fst_subset hm)
      · exact breakAtChar_fst_not_mem '?' _
      · exact takeScheme_none_break (takeScheme_none_break hts)
  · obtain ⟨pre, _, hs, _, ⟨c, cs, hcc, _⟩, hok⟩ := takeScheme_some hts
    have hs0ne : s0 ≠ [] := by
      rw [hs, hcc]
      simp
    simp only [urlsplitList, hts]
    split
    · refine ⟨⟨?_, ?_⟩, (splitNetloc_spec _).2.1, Or.inr hok, fun _ => ?_,
        fun h0 _ => absurd h0 hs0ne, by trivial⟩
      · exact fun hm => breakAtChar_fst_not_mem '#' _ (breakAtChar_fst_subset hm)
      · exact breakAtChar_fst_not_mem '?' _
      · exact path_shape_of_stop (splitNetloc_spec _).2.2
    · refine ⟨⟨?_, ?_⟩, by simp, Or.inr hok, by simp, fun h0 _ => absurd h0 hs0ne, by trivial⟩
      · exact fun hm => breakAtChar_fst_not_mem '#' _ (breakAtChar_fst_subset hm)
      · exact breakAtChar_fst_not_mem '?' _

theorem urlparseList_eq (l : List Char) :
    (¬((urlsplitList l).scheme ∈ uses_params ∧ ';' ∈ (urlsplitList l).path) ∧
      urlparseList l = urlsplitList l) ∨
    (((urlsplitList l).scheme ∈ uses_params ∧ ';' ∈ (urlsplitList l).path) ∧
      urlparseList l = { urlsplitList l with
        path := (splitParams (urlsplitList l).path).1,
        params := (splitParams (urlsplitList l).path).2 }) := by
  by_cases hc : (urlsplitList l).scheme ∈ uses_params ∧ ';' ∈ (urlsplitList l).path
  · right
    exact ⟨hc, by simp only [urlparseList, if_pos hc]⟩
  · left
    exact ⟨hc, by simp only [urlparseList, if_neg hc]⟩

theorem urlparseList_same (l : List Char) :
    (urlparseList l).scheme = (urlsplitList l).scheme ∧
    (urlparseList l).netloc = (urlsplitList l).netloc ∧
    (urlparseList l).query = (urlsplitList l).query ∧
    (urlparseList l).fragment = (urlsplitList l).fragment := by
  rcases urlparseList_eq l with ⟨_, he⟩ | ⟨_, he⟩ <;> rw [he] <;> exact ⟨rfl, rfl, rfl, rfl⟩

/-- Re-splitting the result of `urlunsplit` recovers the components, for
component lists shaped like actual parse results with a nonempty netloc. -/
theorem urlsplit_unsplit {s n pathArg : List Char}
    (hs : s = [] ∨ SchemeOK s)
    (hn : n ≠ [])
    (hnet : ∀ x ∈ n, stopChar x = false)
    (hsh : pathArg = [] ∨ pathArg.head? = some '/')
    (hhash : '#' ∉ pathArg) (hq : '?' ∉ pathArg) :
    urlsplitList (urlunsplitList s n pathArg [] []) = ⟨s, n, pathArg, [], [], []⟩ := by
  have hif : ¬(pathArg ≠ [] ∧ pathArg.head? ≠ some '/') := by
    rcases hsh with rfl | hh
    · exact fun hc => hc.1 rfl
    · exact fun hc => hc.2 hh
  have hcond : (n ≠ [] ∨ (s ≠ [] ∧ s ∈ uses_netloc ∧ pathArg.take 2 ≠ ['/', '/'])) :=
    Or.inl hn
  have hun : urlunsplitList s n pathArg [] [] =
      (if s ≠ [] then s ++ ':' :: ('/' :: '/' :: (n ++ pathArg)) else
        '/' :: '/' :: (n ++ pathArg)) := by
    simp only [urlunsplitList, if_pos hcond, if_neg hif]
    rw [if_neg (fun hc : ([] : List Char) ≠ [] => hc rfl),
      if_neg (fun hc : ([] : List Char) ≠ [] => hc rfl)]
  have hnl : splitNetloc (n ++ pathArg) = (n, pathArg) := by
    refine splitNetloc_append hnet ?_
    rcases hsh with rfl | hh
    · exact Or.inl rfl
    · rcases pathArg with _ | ⟨c, t⟩
      · exact Or.inl rfl
      · simp only [List.head?_cons, Option.some.injEq] at hh
        subst hh
        exact Or.inr ⟨'/', t, rfl, rfl⟩
  have hbf : breakAtChar '#' pathArg = (pathArg, none) := breakAtChar_of_not_mem hhash
  have hbq : breakAtChar '?' pathArg = (pathArg, none) := breakAtChar_of_not_mem hq
  rcases hs with rfl | hok
  · rw [hun]
    rw [if_neg (fun hc => hc rfl)]
    have hns : takeScheme ('/' :: '/' :: (n ++ pathArg)) = none :=
      takeScheme_none_cons (by decide)
    simp only [urlsplitList, hns, hnl, hbf, hbq]
    rfl
  · have hsne : s ≠ [] := by
      obtain ⟨⟨c, cs, hcc, _⟩, _, _⟩ := hok
      rw [hcc]
      simp
    rw [hun, if_pos hsne]
    have hts : takeScheme (s ++ ':' :: ('/' :: '/' :: (n ++ pathArg))) =
        some (s, '/' :: '/' :: (n ++ pathArg)) := takeScheme_build hok
    simp only [urlsplitList, hts, hnl, hbf, hbq]
    rfl

/-- Re-parsing the normalization of a URL with a nonempty host recovers
exactly the original components with query and fragment cleared. -/
theorem urlparse_unparse_roundtrip (l : List Char)
    (hn : (urlparseList l).netloc ≠ []) :
    urlparseList (urlunparseList { urlparseList l with query := [], fragment := [] }) =
      { urlparseList l with query := [], fragment := [] } := by
  obtain ⟨⟨hh, hq⟩, hnet, hsch, hshape, _, hp0⟩ := urlsplitList_facts l
  obtain ⟨hseq, hneq, _, _⟩ := urlparseList_same l
  have hn' : (urlsplitList l).netloc ≠ [] := hneq ▸ hn
  rcases urlparseList_eq l with ⟨hcond, he⟩ | ⟨hcond, he⟩
  · rcases hv : urlsplitList l with ⟨s, n, pa0, pr0, q0, f0⟩
    rw [hv] at hcond he hh hq hnet hsch hshape hn' hp0
    dsimp only at hcond hh hq hnet hsch hshape hn' hp0
    subst hp0
    rw [he]
    dsimp only
    have hps : pa0 = [] ∨ pa0.head? = some '/' := hshape hn'
    have hu := urlsplit_unsplit hsch hn' hnet hps hh hq
    have hunp : urlunparseList ⟨s, n, pa0, [], [], []⟩ =
        urlunsplitList s n pa0 [] [] := by
      simp [urlunparseList]
    rw [hunp]
    simp only [urlparseList, hu]
    rw [if_neg hcond]
  · rcases hv : urlsplitList l with ⟨s, n, pa0, pr0, q0, f0⟩
    rw [hv] at hcond he hh hq hnet hsch hshape hn' hp0
    dsimp only at hcond hh hq hnet hsch hshape hn' hp0
    subst hp0
    rcases hsp : splitParams pa0 with ⟨pa, pr⟩
    rw [hsp] at he
    dsimp only at he
    rw [he]
    dsimp only
    have hd := splitParams_spec pa0
    rw [hsp] at hd
    dsimp only at hd
    have hpa0ne : pa0 ≠ [] := by
      intro h0
      rw [h0] at hcond
      simp at hcond
    have hps0 : pa0.head? = some '/' := by
      rcases hshape hn' with h0 | h0
      · exact absurd h0 hpa0ne
      · exact h0
    have hsub : ∀ x, x ∈ (if pr ≠ [] then pa ++ ';' :: pr else pa) → x ∈ pa0 ∨ x = ';' := by
      intro x hx
      by_cases hpr : pr = []
      · rw [hpr, if_neg (fun hc : ([] : List Char) ≠ [] => hc rfl)] at hx
        left
        have := @splitParams_mem pa0 x
        rw [hsp] at this
        exact this.1 hx
      · rw [if_pos hpr] at hx
        rcases List.mem_append.mp hx with hx1 | hx2
        · left
          have := @splitParams_mem pa0 x
          rw [hsp] at this
          exact this.1 hx1
        · rcases List.mem_cons.mp hx2 with rfl | hx3
          · right; rfl
          · left
            have := @splitParams_mem pa0 x
            rw [hsp] at this
            exact this.2 hx3
    have hh' : '#' ∉ (if pr ≠ [] then pa ++ ';' :: pr else pa) := by
      intro hm
      rcases hsub _ hm with hm0 | hm0
      · exact hh hm0
      · exact absurd hm0 (by decide)
    have hq' : '?' ∉ (if pr ≠ [] then pa ++ ';' :: pr else pa) := by
      intro hm
      rcases hsub _ hm with hm0 | hm0
      · exact hq hm0
      · exact absurd hm0 (by decide)
    have hpane : pa ≠ [] := by
      rcases hd with hd1 | ⟨hd2, hd3⟩
      · intro h0
        rw [h0] at hd1
        rw [hd1] at hps0
        simp at hps0
      · intro h0
        rw [← hd3, h0] at hpa0ne
        exact hpa0ne rfl
    have hpahead : pa.head? = some '/' := by
      rcases hd with hd1 | ⟨hd2, hd3⟩
      · rcases pa with _ | ⟨c, t⟩
        · exact absurd rfl hpane
        · rw [hd1] at hps0
          simpa using hps0
      · rw [hd3]
        exact hps0
    have hps : (if pr ≠ [] then pa ++ ';' :: pr else pa) = [] ∨
        (if pr ≠ [] then pa ++ ';' :: pr else pa).head? = some '/' := by
      right
      by_cases hpr : pr = []
      · rw [hpr, if_neg (fun hc : ([] : List Char) ≠ [] => hc rfl)]
        exact hpahead
      · rw [if_pos hpr]
        rcases pa with _ | ⟨c, t⟩
        · exact absurd rfl hpane
        · simpa using hpahead
    have hu := urlsplit_unsplit hsch hn' hnet hps hh' hq'
    have hunp : urlunparseList ⟨s, n, pa, pr, [], []⟩ =
        urlunsplitList s n (if pr ≠ [] then pa ++ ';' :: pr else pa) [] [] := rfl
    rw [hunp]
    simp only [urlparseList, hu]
    by_cases hsemi : ';' ∈ (if pr ≠ [] then pa ++ ';' :: pr else pa)
    · rw [if_pos ⟨hcond.1, hsemi⟩]
      have hfinal : splitParams (if pr ≠ [] then pa ++ ';' :: pr else pa) = (pa, pr) := by
        by_cases hpr : pr = []
        · subst hpr
          rw [if_neg (fun hc : ([] : List Char) ≠ [] => hc rfl)]
          rcases hd with hd1 | ⟨hd2, hd3⟩
          · have : pa0 = pa ++ [';'] := hd1
            exact splitParams_drop_semi hsp this
          · rw [hd3]
            rw [hd3] at hsp
            exact hsp
        · rw [if_pos hpr]
          rcases hd with hd1 | ⟨hd2, hd3⟩
          · rw [← hd1]
            exact hsp
          · exact absurd hd2 hpr
      rw [hfinal]
    · rw [if_neg (fun hc => hsemi hc.2)]
      have hpr : pr = [] := by
        by_contra hpr
        apply hsemi
        rw [if_pos hpr]
        exact List.mem_append_right _ (List.mem_cons_self _ _)
      subst hpr
      simp

theorem urlsplit_fq_empty {m : List Char} (hh : '#' ∉ m) (hq : '?' ∉ m) :
    (urlsplitList m).query = [] ∧ (urlsplitList m).fragment = [] := by
  have main : ∀ t : List Char, '#' ∉ t → '?' ∉ t →
      ((breakAtChar '?' (breakAtChar '#' t).1).2.getD ([] : List Char) = [] ∧
       (breakAtChar '#' t).2.getD ([] : List Char) = []) := by
    intro t h1 h2
    simp [breakAtChar_of_not_mem h1, breakAtChar_of_not_mem h2]
  rcases hts : takeScheme m with _ | ⟨s0, r0⟩
  · simp only [urlsplitList, hts]
    split
    next r =>
      have hsub : ∀ x ∈ (splitNetloc r).2, x ∈ r := by
        intro x hx
        have h0 := (splitNetloc_spec r).1
        rw [h0]
        exact List.mem_append_right _ hx
      exact main _
        (fun hm => hh (List.mem_cons_of_mem _ (List.mem_cons_of_mem _ (hsub _ hm))))
        (fun hm => hq (List.mem_cons_of_mem _ (List.mem_cons_of_mem _ (hsub _ hm))))
    next => exact main _ hh hq
  · obtain ⟨pre, hl, _, _, _, _⟩ := takeScheme_some hts
    have hr0 : ∀ x ∈ r0, x ∈ m := by
      intro x hx
      rw [hl]
      exact List.mem_append_right _ (List.mem_cons_of_mem _ hx)
    have hh0 : '#' ∉ r0 := fun hm => hh (hr0 _ hm)
    have hq0 : '?' ∉ r0 := fun hm => hq (hr0 _ hm)
    simp only [urlsplitList, hts]
    split
    next r =>
      have hsub : ∀ x ∈ (splitNetloc r).2, x ∈ r := by
        intro x hx
        have h0 := (splitNetloc_spec r).1
        rw [h0]
        exact List.mem_append_right _ hx
      exact main _
        (fun hm => hh0 (List.mem_cons_of_mem _ (List.mem_cons_of_mem _ (hsub _ hm))))
        (fun hm => hq0 (List.mem_cons_of_mem _ (List.mem_cons_of_mem _ (hsub _ hm))))
    next => exact main _ hh0 hq0

theorem urlparseList_no_qf_chars (l : List Char) :
    '#' ∉ (urlparseList l).path ∧ '?' ∉ (urlparseList l).path ∧
    '#' ∉ (urlparseList l).params ∧ '?' ∉ (urlparseList l).params := by
  obtain ⟨⟨hh, hq⟩, _, _, _, _, hp0⟩ := urlsplitList_facts l
  rcases urlparseList_eq l with ⟨_, he⟩ | ⟨_, he⟩
  · rw [he, hp0]
    exact ⟨hh, hq, by simp, by simp⟩
  · rw [he]
    refine ⟨fun hm => hh (splitParams_mem.1 hm), fun hm => hq (splitParams_mem.1 hm),
      fun hm => hh (splitParams_mem.2 hm), fun hm => hq (splitParams_mem.2 hm)⟩

theorem unsplit_mem {s n pathArg : List Char} {x : Char}
    (hm : x ∈ urlunsplitList s n pathArg [] []) :
    x ∈ s ∨ x ∈ n ∨ x ∈ pathArg ∨ x = '/' ∨ x = ':' := by
  simp only [urlunsplitList] at hm
  rw [if_neg (fun hc : ([] : List Char) ≠ [] => hc rfl),
    if_neg (fun hc : ([] : List Char) ≠ [] => hc rfl)] at hm
  split at hm <;> (try split at hm) <;> (try split at hm) <;>
    (try simp only [List.mem_append, List.mem_cons, List.not_mem_nil] at hm) <;> tauto

theorem normalize_no_qf (l : List Char) :
    (urlparseList (urlunparseList { urlparseList l with query := [], fragment := [] })).query
      = [] ∧
    (urlparseList (urlunparseList { urlparseList l with query := [], fragment := [] })).fragment
      = [] := by
  obtain ⟨hph, hpq, hrh, hrq⟩ := urlparseList_no_qf_chars l
  obtain ⟨_, hnet0, hsch0, _, _, _⟩ := urlsplitList_facts l
  obtain ⟨hseq, hneq, _, _⟩ := urlparseList_same l
  have hout : urlunparseList { urlparseList l with query := [], fragment := [] } =
      urlunsplitList (urlparseList l).scheme (urlparseList l).netloc
        (if (urlparseList l).params ≠ []
          then (urlparseList l).path ++ ';' :: (urlparseList l).params
          else (urlparseList l).path) [] [] := rfl
  have hsm : ∀ x ∈ (urlparseList l).scheme, schemeChar x = true := by
    rw [hseq]
    rcases hsch0 with h0 | h0
    · rw [h0]
      intro x hx
      simp at hx
    · exact h0.2.1
  have hpathArg : ∀ x, x ∈ (if (urlparseList l).params ≠ []
        then (urlparseList l).path ++ ';' :: (urlparseList l).params
        else (urlparseList l).path) →
      x ∈ (urlparseList l).path ∨ x = ';' ∨ x ∈ (urlparseList l).params := by
    intro x hx
    by_cases hc : (urlparseList l).params = []
    · rw [if_neg (fun h0 => h0 hc)] at hx
      exact Or.inl hx
    · rw [if_pos hc] at hx
      rcases List.mem_append.mp hx with h1 | h1
      · exact Or.inl h1
      · rcases List.mem_cons.mp h1 with rfl | h2
        · exact Or.inr (Or.inl rfl)
        · exact Or.inr (Or.inr h2)
  have hnoh : '#' ∉ urlunparseList { urlparseList l with query := [], fragment := [] } := by
    rw [hout]
    intro hm
    rcases unsplit_mem hm with h0 | h0 | h0 | h0 | h0
    · exact absurd (hsm _ h0) (by decide)
    · rw [hneq] at h0
      exact absurd (hnet0 _ h0) (by decide)
    · rcases hpathArg _ h0 with h1 | h1 | h1
      · exact hph h1
      · exact absurd h1 (by decide)
      · exact hrh h1
    · exact absurd h0 (by decide)
    · exact absurd h0 (by decide)
  have hnoq : '?' ∉ urlunparseList { urlparseList l with query := [], fragment := [] } := by
    rw [hout]
    intro hm
    rcases unsplit_mem hm with h0 | h0 | h0 | h0 | h0
    · exact absurd (hsm _ h0) (by decide)
    · rw [hneq] at h0
      exact absurd (hnet0 _ h0) (by decide)
    · rcases hpathArg _ h0 with h1 | h1 | h1
      · exact hpq h1
      · exact absurd h1 (by decide)
      · exact hrq h1
    · exact absurd h0 (by decide)
    · exact absurd h0 (by decide)
  obtain ⟨hq1, hf1⟩ := urlsplit_fq_empty hnoh hnoq
  obtain ⟨_, _, hq2, hf2⟩ :=
    urlparseList_same (urlunparseList { urlparseList l with query := [], fragment := [] })
  exact ⟨hq2.trans hq1, hf2.trans hf1⟩

/-! Crawl-engine step lemmas. -/

theorem nodup_append_singleton {α : Type} {l : List α} {a : α}
    (h1 : l.Nodup) (h2 : a ∉ l) : (l ++ [a]).Nodup := by
  rw [List.nodup_append]
  exact ⟨h1, List.nodup_singleton a, fun x hx hx1 => by
    rw [List.mem_singleton] at hx1
    exact h2 (hx1 ▸ hx)⟩

theorem process_url_visited {env : CrawlEnv} {run : CrawlRun} {url : String}
    (h : normalize_url url ∈ run.scraper.visited_urls) :
    process_url env run url = ⟨run, [], false⟩ := by
  simp [process_url, h]

theorem process_url_skip {env : CrawlEnv} {run : CrawlRun} {url : String}
    (h : normalize_url url ∉ run.scraper.visited_urls)
    (hskip : text_blank (scrape_page env (mark_visited run.scraper (normalize_url url)) url).2
        = true ∨
      env.md5hex (scrape_page env (mark_visited run.scraper (normalize_url url)) url).2
        ∈ run.scraper.text_hashes) :
    process_url env run url =
      ⟨⟨mark_visited run.scraper (normalize_url url), run.trace ++ [url], run.records⟩,
        [], false⟩ := by
  rcases hskip with hb | hd
  · simp [process_url, h, hb]
  · by_cases hb : text_blank
        (scrape_page env (mark_visited run.scraper (normalize_url url)) url).2 = true
    · simp [process_url, h, hb]
    · rw [Bool.not_eq_true] at hb
      have hmh : (mark_visited run.scraper (normalize_url url)).text_hashes
          = run.scraper.text_hashes := rfl
      simp [process_url, h, hb, hmh, hd]

theorem process_url_new {env : CrawlEnv} {run : CrawlRun} {url : String}
    (h : normalize_url url ∉ run.scraper.visited_urls)
    (hb : text_blank (scrape_page env (mark_visited run.scraper (normalize_url url)) url).2
        = false)
    (hd : env.md5hex (scrape_page env (mark_visited run.scraper (normalize_url url)) url).2
        ∉ run.scraper.text_hashes) :
    process_url env run url =
      ⟨⟨add_record (mark_visited run.scraper (normalize_url url))
          (env.md5hex (scrape_page env (mark_visited run.scraper (normalize_url url)) url).2)
          (page_content (normalize_url url)
            (scrape_page env (mark_visited run.scraper (normalize_url url)) url).2),
        run.trace ++ [url],
        run.records ++ [(normalize_url url,
          (scrape_page env (mark_visited run.scraper (normalize_url url)) url).2)]⟩,
        (scrape_page env (mark_visited run.scraper (normalize_url url)) url).1, true⟩ := by
  have hmh : (mark_visited run.scraper (normalize_url url)).text_hashes
      = run.scraper.text_hashes := rfl
  simp [process_url, h, hb, hmh, hd]

theorem process_url_cases (env : CrawlEnv) (run : CrawlRun) (url : String) :
    (normalize_url url ∈ run.scraper.visited_urls ∧
      process_url env run url = ⟨run, [], false⟩) ∨
    (normalize_url url ∉ run.scraper.visited_urls ∧
      (process_url env run url =
        ⟨⟨mark_visited run.scraper (normalize_url url), run.trace ++ [url], run.records⟩,
          [], false⟩ ∨
       (text_blank (scrape_page env (mark_visited run.scraper (normalize_url url)) url).2
          = false ∧
        env.md5hex (scrape_page env (mark_visited run.scraper (normalize_url url)) url).2
          ∉ run.scraper.text_hashes ∧
        process_url env run url =
          ⟨⟨add_record (mark_visited run.scraper (normalize_url url))
              (env.md5hex
                (scrape_page env (mark_visited run.scraper (normalize_url url)) url).2)
              (page_content (normalize_url url)
                (scrape_page env (mark_visited run.scraper (normalize_url url)) url).2),
            run.trace ++ [url],
            run.records ++ [(normalize_url url,
              (scrape_page env (mark_visited run.scraper (normalize_url url)) url).2)]⟩,
            (scrape_page env (mark_visited run.scraper (normalize_url url)) url).1,
            true⟩))) := by
  by_cases h : normalize_url url ∈ run.scraper.visited_urls
  · exact Or.inl ⟨h, process_url_visited h⟩
  · right
    refine ⟨h, ?_⟩
    by_cases hb : text_blank
        (scrape_page env (mark_visited run.scraper (normalize_url url)) url).2 = true
    · exact Or.inl (process_url_skip h (Or.inl hb))
    · rw [Bool.not_eq_true] at hb
      by_cases hd : env.md5hex
          (scrape_page env (mark_visited run.scraper (normalize_url url)) url).2
          ∈ run.scraper.text_hashes
      · exact Or.inl (process_url_skip h (Or.inr hd))
      · exact Or.inr ⟨hb, hd, process_url_new h hb hd⟩

theorem step_preserves (env : CrawlEnv) (run : CrawlRun) (url : String) :
    (process_url env run url).run.scraper.max_pages = run.scraper.max_pages ∧
    (process_url env run url).run.scraper.domain = run.scraper.domain ∧
    (process_url env run url).run.scraper.base_url = run.scraper.base_url := by
  rcases process_url_cases env run url with ⟨_, he⟩ | ⟨_, he | ⟨_, _, he⟩⟩ <;>
    rw [he] <;> exact ⟨rfl, rfl, rfl⟩

theorem step_visited (env : CrawlEnv) (run : CrawlRun) (url : String) :
    (normalize_url url ∈ run.scraper.visited_urls ∧
      process_url env run url = ⟨run, [], false⟩) ∨
    (normalize_url url ∉ run.scraper.visited_urls ∧
      (process_url env run url).run.scraper.visited_urls
        = run.scraper.visited_urls ++ [normalize_url url] ∧
      (process_url env run url).run.trace = run.trace ++ [url]) := by
  rcases process_url_cases env run url with ⟨hm, he⟩ | ⟨hm, he | ⟨_, _, he⟩⟩
  · exact Or.inl ⟨hm, he⟩
  · exact Or.inr ⟨hm, by rw [he]; exact ⟨rfl, rfl⟩⟩
  · exact Or.inr ⟨hm, by rw [he]; exact ⟨rfl, rfl⟩⟩

theorem step_recinv {env : CrawlEnv} {run : CrawlRun} (url : String)
    (hinv : RecInv env run) : RecInv env (process_url env run url).run := by
  obtain ⟨h1, h2, h3⟩ := hinv
  rcases process_url_cases env run url with ⟨_, he⟩ | ⟨_, he | ⟨_, hd, he⟩⟩
  · rw [he]
    exact ⟨h1, h2, h3⟩
  · rw [he]
    exact ⟨h1, h2, h3⟩
  · rw [he]
    refine ⟨?_, ?_, ?_⟩
    · show run.scraper.text_hashes ++ [_] = _
      rw [List.map_append, h1]
      rfl
    · show (run.scraper.text_hashes ++ [_]).Nodup
      exact nodup_append_singleton h2 hd
    · show run.scraper.text_content ++ [_] = _
      rw [List.map_append, h3]
      rfl

theorem step_traceinv {env : CrawlEnv} {run : CrawlRun} (url : String)
    (hinv : TraceInv run) : TraceInv (process_url env run url).run := by
  obtain ⟨h1, h2⟩ := hinv
  rcases step_visited env run url with ⟨_, he⟩ | ⟨hm, hv, ht⟩
  · rw [he]
    exact ⟨h1, h2⟩
  · constructor
    · rw [ht, List.map_append]
      refine nodup_append_singleton h1 ?_
      intro hmem
      obtain ⟨u, hu, hnu⟩ := List.mem_map.mp hmem
      exact hm (hnu ▸ h2 u hu)
    · intro u hu
      rw [ht] at hu
      rw [hv]
      rcases List.mem_append.mp hu with hu1 | hu2
      · exact List.mem_append_left _ (h2 u hu1)
      · rw [List.mem_singleton] at hu2
        subst hu2
        exact List.mem_append_right _ (List.mem_singleton_self _)

theorem step_counts (env : CrawlEnv) (run : CrawlRun) (url : String) :
    (process_url env run url).run.trace.length + run.scraper.visited_urls.length
      = run.trace.length + (process_url env run url).run.scraper.visited_urls.length := by
  rcases step_visited env run url with ⟨_, he⟩ | ⟨_, hv, ht⟩
  · rw [he]
  · rw [hv, ht]
    simp only [List.length_append, List.length_singleton]
    omega

theorem step_budget {env : CrawlEnv} {run : CrawlRun} (url : String)
    (hg : run.scraper.visited_urls.length < run.scraper.max_pages) :
    (process_url env run url).run.scraper.visited_urls.length
      ≤ (process_url env run url).run.scraper.max_pages := by
  have hmp := (step_preserves env run url).1
  rcases step_visited env run url with ⟨_, he⟩ | ⟨_, hv, _⟩
  · rw [he]
    exact Nat.le_of_lt hg
  · rw [hv, hmp]
    simp only [List.length_append, List.length_singleton]
    omega

/-- Generic invariant-preservation through the crawl loop: a property
preserved by every guarded loop-body execution holds at exit. -/
theorem crawl_loop_inv (env : CrawlEnv) (P : CrawlRun → Prop)
    (hstep : ∀ run url, run.scraper.visited_urls.length < run.scraper.max_pages →
      P run → P (process_url env run url).run) :
    ∀ (fuel : Nat) (run : CrawlRun) (frontier : List String) (run' : CrawlRun),
      crawl_loop env fuel run frontier = some run' → P run → P run' := by
  intro fuel
  induction fuel with
  | zero =>
    intro run frontier run' h
    simp [crawl_loop] at h
  | succ fuel ih =>
    intro run frontier run' h hp
    rcases frontier with _ | ⟨url, rest⟩
    · simp only [crawl_loop, Option.some.injEq] at h
      exact h ▸ hp
    · simp only [crawl_loop] at h
      split at h
      next hg => exact ih _ _ _ h (hstep run url hg hp)
      next hg =>
        simp only [Option.some.injEq] at h
        exact h ▸ hp

theorem crawl_loop_none_zero (env : CrawlEnv) (run : CrawlRun)
    (frontier : List String) : crawl_loop env 0 run frontier = none := rfl

/-- The loop terminates: some fuel returns `some`.  Nested induction on the
remaining budget and the frontier length. -/
theorem crawl_loop_total (env : CrawlEnv) :
    ∀ (k n : Nat) (run : CrawlRun) (frontier : List String),
      run.scraper.max_pages - run.scraper.visited_urls.length ≤ k →
      frontier.length ≤ n →
      ∃ fuel run', crawl_loop env fuel run frontier = some run' := by
  intro k
  induction k with
  | zero =>
    intro n run frontier hk _
    rcases frontier with _ | ⟨url, rest⟩
    · exact ⟨1, run, rfl⟩
    · refine ⟨1, run, ?_⟩
      simp only [crawl_loop]
      rw [if_neg (by omega)]
  | succ k ihk =>
    intro n
    induction n with
    | zero =>
      intro run frontier _ hn
      rw [List.length_eq_zero.mp (Nat.le_zero.mp hn)]
      exact ⟨1, run, rfl⟩
    | succ n ihn =>
      intro run frontier hk hn
      rcases frontier with _ | ⟨url, rest⟩
      · exact ⟨1, run, rfl⟩
      · by_cases hg : run.scraper.visited_urls.length < run.scraper.max_pages
        · rcases step_visited env run url with ⟨_, he⟩ | ⟨_, hv, _⟩
          · have hlinks : (process_url env run url).new_links = [] := by rw [he]
            have hrun : (process_url env run url).run = run := by rw [he]
            obtain ⟨fuel0, run', h0⟩ := ihn run rest hk (by
              simp only [List.length_cons] at hn
              omega)
            refine ⟨fuel0 + 1, run', ?_⟩
            simp only [crawl_loop, if_pos hg, hlinks, hrun, List.append_nil]
            exact h0
          · have hmp := (step_preserves env run url).1
            obtain ⟨fuel0, run', h0⟩ := ihk ((rest ++ (process_url env run url).new_links).length)
              (process_url env run url).run (rest ++ (process_url env run url).new_links)
              (by rw [hmp, hv]; simp only [List.length_append, List.length_singleton]; omega)
              (Nat.le_refl _)
            refine ⟨fuel0 + 1, run', ?_⟩
            simp only [crawl_loop, if_pos hg]
            exact h0
        · refine ⟨1, run, ?_⟩
          simp only [crawl_loop]
          rw [if_neg hg]

/-! Loop-level corollaries of the generic invariant lemma. -/

theorem crawl_loop_visited_prefix (env : CrawlEnv) (fuel : Nat) (run : CrawlRun)
    (frontier : List String) (run' : CrawlRun)
    (h : crawl_loop env fuel run frontier = some run') :
    ∃ t, run'.scraper.visited_urls = run.scraper.visited_urls ++ t := by
  refine crawl_loop_inv env
    (fun r => ∃ t, r.scraper.visited_urls = run.scraper.visited_urls ++ t)
    (fun r url _ hp => ?_) fuel run frontier run' h ⟨[], by simp⟩
  obtain ⟨t, ht⟩ := hp
  rcases step_visited env r url with ⟨_, he⟩ | ⟨_, hv, _⟩
  · exact ⟨t, by rw [he]; exact ht⟩
  · exact ⟨t ++ [normalize_url url], by rw [hv, ht, List.append_assoc]⟩

theorem crawl_loop_max_pages (env : CrawlEnv) (fuel : Nat) (run : CrawlRun)
    (frontier : List String) (run' : CrawlRun)
    (h : crawl_loop env fuel run frontier = some run') :
    run'.scraper.max_pages = run.scraper.max_pages :=
  crawl_loop_inv env (fun r => r.scraper.max_pages = run.scraper.max_pages)
    (fun r url _ hp => ((step_preserves env r url).1).trans hp) fuel run frontier run' h rfl

theorem crawl_loop_budget (env : CrawlEnv) (fuel : Nat) (run : CrawlRun)
    (frontier : List String) (run' : CrawlRun)
    (h : crawl_loop env fuel run frontier = some run')
    (hb : run.scraper.visited_urls.length ≤ run.scraper.max_pages) :
    run'.scraper.visited_urls.length ≤ run'.scraper.max_pages :=
  crawl_loop_inv env (fun r => r.scraper.visited_urls.length ≤ r.scraper.max_pages)
    (fun r url hg _ => step_budget url hg) fuel run frontier run' h hb

theorem crawl_loop_counts (env : CrawlEnv) (fuel : Nat) (run : CrawlRun)
    (frontier : List String) (run' : CrawlRun)
    (h : crawl_loop env fuel run frontier = some run') :
    run'.trace.length + run.scraper.visited_urls.length
      = run.trace.length + run'.scraper.visited_urls.length := by
  refine crawl_loop_inv env
    (fun r => r.trace.length + run.scraper.visited_urls.length
      = run.trace.length + r.scraper.visited_urls.length)
    (fun r url _ hp => ?_) fuel run frontier run' h rfl
  have hs := step_counts env r url
  omega

theorem crawl_loop_recinv (env : CrawlEnv) (fuel : Nat) (run : CrawlRun)
    (frontier : List String) (run' : CrawlRun)
    (h : crawl_loop env fuel run frontier = some run')
    (hinv : RecInv env run) : RecInv env run' :=
  crawl_loop_inv env (RecInv env) (fun r url _ hp => step_recinv url hp)
    fuel run frontier run' h hinv

theorem crawl_loop_traceinv (env : CrawlEnv) (fuel : Nat) (run : CrawlRun)
    (frontier : List String) (run' : CrawlRun)
    (h : crawl_loop env fuel run frontier = some run')
    (hinv : TraceInv run) : TraceInv run' :=
  crawl_loop_inv env TraceInv (fun r url _ hp => step_traceinv url hp)
    fuel run frontier run' h hinv

/-- Distinct content hashes force pairwise-distinct recorded texts. -/
theorem records_snd_pairwise {env : CrawlEnv} {records : List (String × String)}
    (h : (records.map (fun r => env.md5hex r.2)).Nodup) :
    records.Pairwise (fun a b => a.2 ≠ b.2) := by
  rw [List.Nodup, List.pairwise_map] at h
  exact h.imp fun hab hsnd => hab (congrArg env.md5hex hsnd)

/-- Elements accumulated by a fold that only ever appends filtered items
are either initial or satisfy the filter. -/
theorem foldl_append_sound {β : Type} {P : String → Prop}
    (f : List String → β → List String)
    (hf : ∀ links b, ∀ l ∈ f links b, l ∈ links ∨ P l) :
    ∀ (bs : List β) (init : List String), ∀ l ∈ bs.foldl f init, l ∈ init ∨ P l := by
  intro bs
  induction bs with
  | nil =>
    intro init l hl
    exact Or.inl hl
  | cons b t ih =>
    intro init l hl
    rw [List.foldl_cons] at hl
    rcases ih _ l hl with h1 | h1
    · exact hf init b l h1
    · exact Or.inr h1

set_option maxHeartbeats 2000000 in
/-- Every link produced by `get_all_links` passed the scope filter and the
visited check. -/
theorem get_all_links_sound (env : CrawlEnv) (sc : Scraper) (hrefs : List String)
    (page_url : String) :
    ∀ l ∈ get_all_links env sc hrefs page_url,
      is_valid_url sc.domain l = true ∧ l ∉ sc.visited_urls := by
  intro l hl
  rw [get_all_links] at hl
  have hres := foldl_append_sound
    (P := fun m => is_valid_url sc.domain m = true ∧ m ∉ sc.visited_urls) _ ?_ hrefs [] l hl
  · rcases hres with h1 | h1
    · exact absurd h1 (List.not_mem_nil l)
    · exact h1
  · intro links b m hm
    dsimp only at hm
    split at hm <;> split at hm <;>
      first
        | exact Or.inl hm
        | (rename_i hc
           rcases List.mem_append.mp hm with hm1 | hm2
           · exact Or.inl hm1
           · rw [List.mem_singleton] at hm2
             exact Or.inr (hm2 ▸ hc))

/-- Links returned by `scrape_page` come from `get_all_links` (or there are
none). -/
theorem scrape_page_links (env : CrawlEnv) (sc : Scraper) (url : String) :
    (scrape_page env sc url).1 = [] ∨
    ∃ hrefs, (scrape_page env sc url).1 = get_all_links env sc hrefs url := by
  rcases hf : env.fetch url with _ | ⟨ct, text, hrefs⟩
  · left
    simp [scrape_page, hf]
  · by_cases hct : strContains (strToLower ct) "text/html" = true
    · right
      exact ⟨hrefs, by simp [scrape_page, hf, hct]⟩
    · left
      rw [Bool.not_eq_true] at hct
      simp [scrape_page, hf, hct]

/-! Claim theorems. -/

/-- Claim C1, counterexample: at a state whose hash set already contains the
hash of "hello world", the page `/a` is fetched and successfully extracted
with non-blank text and a fresh in-scope outbound link `/d`, yet the
iteration hands back no links for the frontier (and creates no record) —
refuting the claim that a duplicate-content page's outbound links are still
appended to the frontier. -/
theorem c1_counterexample :
    scrape_page demoEnv (mark_visited runC1.scraper (normalize_url "https://example.com/a"))
        "https://example.com/a" = (["https://example.com/d"], "hello world") ∧
    text_blank "hello world" = false ∧
    demoEnv.md5hex "hello world" ∈ runC1.scraper.text_hashes ∧
    (process_url demoEnv runC1 "https://example.com/a").new_links = [] ∧
    (process_url demoEnv runC1 "https://example.com/a").run.records = runC1.records ∧
    (process_url demoEnv runC1 "https://example.com/a").run.scraper.text_content
      = runC1.scraper.text_content :=
  ⟨rfl, rfl, by decide, rfl, rfl, rfl⟩

/-- Claim C1 (amended): when a processed page's extracted text hashes to a
value already in the ContentHashSet, no PageRecord is created **and its
outbound links are NOT appended to the frontier**: the iteration contributes
no frontier entries (`continue` precedes `urls_to_visit.extend`). -/
theorem c1_duplicate_hash_drops_links (env : CrawlEnv) (run : CrawlRun) (url : String)
    (hnv : normalize_url url ∉ run.scraper.visited_urls)
    (hdup : env.md5hex (scrape_page env (mark_visited run.scraper (normalize_url url)) url).2
      ∈ run.scraper.text_hashes) :
    (process_url env run url).new_links = [] ∧
    (process_url env run url).run.records = run.records ∧
    (process_url env run url).run.scraper.text_content = run.scraper.text_content ∧
    (process_url env run url).run.scraper.text_hashes = run.scraper.text_hashes := by
  rw [process_url_skip hnv (Or.inr hdup)]
  exact ⟨rfl, rfl, rfl, rfl⟩

/-- Claim C1, witness for the amended theorem at the concrete duplicate-text
state. -/
theorem c1_witness :
    normalize_url "https://example.com/a" ∉ runC1.scraper.visited_urls ∧
    demoEnv.md5hex (scrape_page demoEnv
        (mark_visited runC1.scraper (normalize_url "https://example.com/a"))
        "https://example.com/a").2 ∈ runC1.scraper.text_hashes ∧
    ((process_url demoEnv runC1 "https://example.com/a").new_links = [] ∧
     (process_url demoEnv runC1 "https://example.com/a").run.records = runC1.records ∧
     (process_url demoEnv runC1 "https://example.com/a").run.scraper.text_content
       = runC1.scraper.text_content ∧
     (process_url demoEnv runC1 "https://example.com/a").run.scraper.text_hashes
       = runC1.scraper.text_hashes) :=
  ⟨by decide, by decide,
    c1_duplicate_hash_drops_links demoEnv runC1 "https://example.com/a"
      (by decide) (by decide)⟩

/-- Claim C2, counterexample: an iteration that dequeues and fetches a URL
whose fetch fails performs no politeness delay (`slept = false`), refuting
the claim that the delay is applied on all outcome paths.  The ghost trace
shows the URL was indeed processed (passed to the fetcher). -/
theorem c2_counterexample :
    (process_url failEnv ⟨demoScraper, [], []⟩ "https://example.com").run.trace
      = ["https://example.com"] ∧
    (process_url failEnv ⟨demoScraper, [], []⟩ "https://example.com").slept = false :=
  ⟨rfl, rfl⟩

/-- Claim C2 (amended): the fixed inter-request delay is executed exactly on
the iterations that create a new PageRecord (`time.sleep(0.5)` sits on the
new-record path only, after the record is accumulated and before the links
are appended); all skip paths proceed to the next iteration without any
delay. -/
theorem c2_sleep_only_on_new_record (env : CrawlEnv) (run : CrawlRun) (url : String) :
    (process_url env run url).slept = true ↔
      (process_url env run url).run.scraper.text_content.length
        = run.scraper.text_content.length + 1 := by
  rcases process_url_cases env run url with ⟨_, he⟩ | ⟨_, he | ⟨_, _, he⟩⟩ <;> rw [he]
  · show (false = true) ↔
      run.scraper.text_content.length = run.scraper.text_content.length + 1
    exact ⟨fun hc => absurd hc (by simp), fun hc => absurd hc (by omega)⟩
  · show (false = true) ↔
      run.scraper.text_content.length = run.scraper.text_content.length + 1
    exact ⟨fun hc => absurd hc (by simp), fun hc => absurd hc (by omega)⟩
  · show (true = true) ↔
      (run.scraper.text_content
        ++ [page_content (normalize_url url)
            (scrape_page env (mark_visited run.scraper (normalize_url url)) url).2]).length
        = run.scraper.text_content.length + 1
    simp

/-- Claim C6: a processed page whose extracted text is empty or
whitespace-only creates no PageRecord, adds no hash, and contributes zero
entries to the frontier. -/
theorem c6_blank_text_drops_everything (env : CrawlEnv) (run : CrawlRun) (url : String)
    (hnv : normalize_url url ∉ run.scraper.visited_urls)
    (hb : text_blank (scrape_page env (mark_visited run.scraper (normalize_url url)) url).2
      = true) :
    (process_url env run url).new_links = [] ∧
    (process_url env run url).run.records = run.records ∧
    (process_url env run url).run.scraper.text_content = run.scraper.text_content ∧
    (process_url env run url).run.scraper.text_hashes = run.scraper.text_hashes := by
  rw [process_url_skip hnv (Or.inl hb)]
  exact ⟨rfl, rfl, rfl, rfl⟩

/-- Claim C6, witness at the failing-fetch seed (empty extracted text). -/
theorem c6_witness :
    normalize_url "https://example.com" ∉ demoScraper.visited_urls ∧
    text_blank (scrape_page failEnv
      (mark_visited demoScraper (normalize_url "https://example.com"))
      "https://example.com").2 = true ∧
    ((process_url failEnv ⟨demoScraper, [], []⟩ "https://example.com").new_links = [] ∧
     (process_url failEnv ⟨demoScraper, [], []⟩ "https://example.com").run.records
       = (⟨demoScraper, [], []⟩ : CrawlRun).records ∧
     (process_url failEnv ⟨demoScraper, [], []⟩ "https://example.com").run.scraper.text_content
       = demoScraper.text_content ∧
     (process_url failEnv ⟨demoScraper, [], []⟩ "https://example.com").run.scraper.text_hashes
       = demoScraper.text_hashes) :=
  ⟨by decide, by decide,
    c6_blank_text_drops_everything failEnv ⟨demoScraper, [], []⟩ "https://example.com"
      (by decide) (by decide)⟩

/-- Claim C7: a URL whose fetch fails (timeout, non-2xx, network error: the
bare `except` path) or whose content type is not an HTML type yields
`([], "")` from the per-page scrape (the failure is recovered locally — the
embedding of `scrape_page` is total), so no PageRecord is created, no links
are enqueued, the URL stays marked visited (never retried), and the loop
simply continues with the next frontier entry. -/
theorem c7_fetch_failure_recovered (env : CrawlEnv) (run : CrawlRun) (url : String)
    (hnv : normalize_url url ∉ run.scraper.visited_urls)
    (hfail : env.fetch url = FetchOutcome.failure ∨
      ∀ ct text hrefs, env.fetch url = FetchOutcome.success ct text hrefs →
        strContains (strToLower ct) "text/html" = false) :
    scrape_page env (mark_visited run.scraper (normalize_url url)) url = ([], "") ∧
    (process_url env run url).new_links = [] ∧
    (process_url env run url).run.records = run.records ∧
    normalize_url url ∈ (process_url env run url).run.scraper.visited_urls ∧
    (∀ (rest : List String) (fuel : Nat),
      run.scraper.visited_urls.length < run.scraper.max_pages →
      crawl_loop env (fuel + 1) run (url :: rest)
        = crawl_loop env fuel (process_url env run url).run rest) := by
  have hsp : scrape_page env (mark_visited run.scraper (normalize_url url)) url
      = ([], "") := by
    rcases hfail with hf | hf
    · simp [scrape_page, hf]
    · rcases he : env.fetch url with _ | ⟨ct, text, hrefs⟩
      · simp [scrape_page, he]
      · have hc := hf ct text hrefs he
        simp [scrape_page, he, hc]
  have hblank : text_blank
      (scrape_page env (mark_visited run.scraper (normalize_url url)) url).2 = true := by
    rw [hsp]
    rfl
  have he := process_url_skip hnv (Or.inl hblank)
  refine ⟨hsp, by rw [he], by rw [he], ?_, ?_⟩
  · rw [he]
    exact List.mem_append_right _ (List.mem_singleton_self _)
  · intro rest fuel hg
    simp only [crawl_loop, if_pos hg]
    rw [he]
    simp

/-- Claim C7, witness at the failing fetch. -/
theorem c7_witness :
    normalize_url "https://example.com" ∉ demoScraper.visited_urls ∧
    failEnv.fetch "https://example.com" = FetchOutcome.failure ∧
    (scrape_page failEnv (mark_visited demoScraper (normalize_url "https://example.com"))
        "https://example.com" = ([], "") ∧
     (process_url failEnv ⟨demoScraper, [], []⟩ "https://example.com").new_links = [] ∧
     (process_url failEnv ⟨demoScraper, [], []⟩ "https://example.com").run.records
       = (⟨demoScraper, [], []⟩ : CrawlRun).records ∧
     normalize_url "https://example.com"
       ∈ (process_url failEnv ⟨demoScraper, [], []⟩
           "https://example.com").run.scraper.visited_urls ∧
     (∀ (rest : List String) (fuel : Nat),
       demoScraper.visited_urls.length < demoScraper.max_pages →
       crawl_loop failEnv (fuel + 1) ⟨demoScraper, [], []⟩ ("https://example.com" :: rest)
         = crawl_loop failEnv fuel
             (process_url failEnv ⟨demoScraper, [], []⟩ "https://example.com").run rest)) :=
  ⟨by decide, rfl,
    c7_fetch_failure_recovered failEnv ⟨demoScraper, [], []⟩ "https://example.com"
      (by decide) (Or.inl rfl)⟩

/-- Claim C3: in any crawl run, a dequeued URL already in the VisitedSet is
discarded without any effect (no fetch, no state change), the VisitedSet
only grows, every fetched URL's normalization is marked visited (it is
added before the fetch, so even failed fetches are never retried), and no
two fetch-trace entries share a normalization: no normalized URL is ever
fetched twice. -/
theorem c3_no_url_fetched_twice (env : CrawlEnv) (fuel : Nat) (sc : Scraper)
    (frontier : List String) (run' : CrawlRun)
    (h : crawl_loop env fuel ⟨sc, [], []⟩ frontier = some run') :
    (∀ (run : CrawlRun) (url : String), normalize_url url ∈ run.scraper.visited_urls →
      process_url env run url = ⟨run, [], false⟩) ∧
    (run'.trace.map normalize_url).Nodup ∧
    (∃ t, run'.scraper.visited_urls = sc.visited_urls ++ t) ∧
    (∀ u ∈ run'.trace, normalize_url u ∈ run'.scraper.visited_urls) := by
  have hti := crawl_loop_traceinv env fuel ⟨sc, [], []⟩ frontier run' h ⟨by simp, by simp⟩
  exact ⟨fun run url hm => process_url_visited hm, hti.1,
    crawl_loop_visited_prefix env fuel _ frontier run' h, hti.2⟩

/-- Claim C3, witness on the concrete failing-fetch run. -/
theorem c3_witness :
    (∀ (run : CrawlRun) (url : String), normalize_url url ∈ run.scraper.visited_urls →
      process_url failEnv run url = ⟨run, [], false⟩) ∧
    (failRun.trace.map normalize_url).Nodup ∧
    (∃ t, failRun.scraper.visited_urls = demoScraper.visited_urls ++ t) ∧
    (∀ u ∈ failRun.trace, normalize_url u ∈ failRun.scraper.visited_urls) :=
  c3_no_url_fetched_twice failEnv 2 demoScraper ["https://example.com"] failRun (by decide)

/-- Claim C4: every crawl run terminates (there is enough fuel to reach the
loop exit), never exceeds the configured page budget, and performs exactly
one fetch per newly visited URL (trace length equals the growth of the
VisitedSet), so with budget 1 exactly one page is fetched regardless of the
frontier contents. -/
theorem c4_budget_respected (env : CrawlEnv) (sc : Scraper) (frontier : List String)
    (hsc : sc.visited_urls.length ≤ sc.max_pages) :
    (∃ fuel run', crawl_loop env fuel ⟨sc, [], []⟩ frontier = some run') ∧
    (∀ (fuel : Nat) (run' : CrawlRun),
      crawl_loop env fuel ⟨sc, [], []⟩ frontier = some run' →
      run'.scraper.visited_urls.length ≤ sc.max_pages ∧
      run'.trace.length + sc.visited_urls.length
        = run'.scraper.visited_urls.length) := by
  constructor
  · exact crawl_loop_total env sc.max_pages frontier.length ⟨sc, [], []⟩ frontier
      (Nat.sub_le _ _) (Nat.le_refl _)
  · intro fuel run' h
    have hmp := crawl_loop_max_pages env fuel ⟨sc, [], []⟩ frontier run' h
    have hb := crawl_loop_budget env fuel ⟨sc, [], []⟩ frontier run' h hsc
    have hc := crawl_loop_counts env fuel ⟨sc, [], []⟩ frontier run' h
    dsimp only at hmp hb hc
    rw [hmp] at hb
    refine ⟨hb, ?_⟩
    simp only [List.length_nil] at hc
    omega

/-- Claim C4, witness: budget 1 on the demo site, whose seed page contains
further in-scope links; exactly one page is fetched. -/
theorem c4_witness :
    (Scraper.init "https://example.com" 1).visited_urls.length
      ≤ (Scraper.init "https://example.com" 1).max_pages ∧
    oneRun.scraper.visited_urls.length ≤ (Scraper.init "https://example.com" 1).max_pages ∧
    oneRun.trace.length + (Scraper.init "https://example.com" 1).visited_urls.length
      = oneRun.scraper.visited_urls.length :=
  ⟨by decide,
    (c4_budget_respected demoEnv (Scraper.init "https://example.com" 1)
      ["https://example.com"] (by decide)).2 2 oneRun (by decide)⟩

/-- Claim C5: over a whole crawl run from a fresh state, the recorded pages
have pairwise distinct extracted texts (two byte-identical texts yield the
same content hash, and a hash is only ever recorded once), and the
accumulated `text_content` blocks are exactly the formatted records. -/
theorem c5_duplicate_text_single_record (env : CrawlEnv) (fuel : Nat) (sc : Scraper)
    (frontier : List String) (run' : CrawlRun)
    (hh : sc.text_hashes = []) (hc : sc.text_content = [])
    (h : crawl_loop env fuel ⟨sc, [], []⟩ frontier = some run') :
    run'.records.Pairwise (fun a b => a.2 ≠ b.2) ∧
    run'.scraper.text_content = run'.records.map (fun r => page_content r.1 r.2) := by
  have hinv := crawl_loop_recinv env fuel ⟨sc, [], []⟩ frontier run' h
    ⟨by simp [hh], by simp [hh], by simp [hc]⟩
  obtain ⟨h1, h2, h3⟩ := hinv
  refine ⟨?_, h3⟩
  rw [h1] at h2
  exact records_snd_pairwise h2

/-- Claim C5, witness: the demo run, in which the duplicate-text page `/a`
produced no second record for "hello world". -/
theorem c5_witness :
    demoScraper.text_hashes = [] ∧ demoScraper.text_content = [] ∧
    (demoRun.records.Pairwise (fun a b => a.2 ≠ b.2) ∧
     demoRun.scraper.text_content = demoRun.records.map (fun r => page_content r.1 r.2)) :=
  ⟨rfl, rfl,
    c5_duplicate_text_single_record demoEnv 5 demoScraper ["https://example.com"] demoRun
      rfl rfl (by decide)⟩

/-- Claim C8: the scope filter accepts a URL iff its parsed host is
nonempty and equals the target domain exactly; consequently every link that
`get_all_links` admits (and hence every link an iteration appends to the
frontier) is in scope, so out-of-domain hosts are never enqueued. -/
theorem c8_scope_filter_in_scope (env : CrawlEnv) (sc : Scraper) :
    (∀ (domain : List Char) (url : String),
      is_valid_url domain url = true ↔
        ((urlparse url).netloc ≠ [] ∧ (urlparse url).netloc = domain)) ∧
    (∀ (hrefs : List String) (page_url : String),
      ∀ l ∈ get_all_links env sc hrefs page_url,
        is_valid_url sc.domain l = true ∧ l ∉ sc.visited_urls) ∧
    (∀ (run : CrawlRun) (url : String), ∀ l ∈ (process_url env run url).new_links,
      is_valid_url run.scraper.domain l = true) := by
  refine ⟨?_, ?_, ?_⟩
  · intro domain url
    simp [is_valid_url]
  · intro hrefs page_url l hl
    exact get_all_links_sound env sc hrefs page_url l hl
  · intro run url l hl
    rcases process_url_cases env run url with ⟨_, he⟩ | ⟨_, he | ⟨_, _, he⟩⟩ <;> rw [he] at hl
    · simp at hl
    · simp at hl
    · rcases scrape_page_links env (mark_visited run.scraper (normalize_url url)) url with
        h0 | ⟨hrefs, h0⟩
      · rw [h0] at hl
        simp at hl
      · rw [h0] at hl
        exact (get_all_links_sound env (mark_visited run.scraper (normalize_url url))
          hrefs url l hl).1

/-- Claim C8, witness at concrete demo values. -/
theorem c8_witness :
    (is_valid_url ("example.com".toList) "https://example.com/a" = true ↔
      ((urlparse "https://example.com/a").netloc ≠ [] ∧
        (urlparse "https://example.com/a").netloc = "example.com".toList)) ∧
    (is_valid_url demoScraper.domain "https://example.com/a" = true ∧
      "https://example.com/a" ∉ demoScraper.visited_urls) ∧
    is_valid_url (⟨demoScraper, [], []⟩ : CrawlRun).scraper.domain
      "https://example.com/a" = true :=
  ⟨(c8_scope_filter_in_scope demoEnv demoScraper).1 "example.com".toList
      "https://example.com/a",
   (c8_scope_filter_in_scope demoEnv demoScraper).2.1 ["https://example.com/a?x=1"]
      "https://example.com" "https://example.com/a" (by decide),
   (c8_scope_filter_in_scope demoEnv demoScraper).2.2 ⟨demoScraper, [], []⟩
      "https://example.com" "https://example.com/a" (by decide)⟩

/-- Claim C10: each loop iteration adds a PageRecord and its content hash
together or not at all — the correspondence `RecInv` (hashes are exactly
the hashes of the recorded texts, without duplicates, and the accumulated
blocks are exactly the formatted records) is preserved by every iteration,
so the record count always equals the hash-set size and the recorded texts
stay pairwise distinct. -/
theorem c10_records_match_hashes (env : CrawlEnv) (run : CrawlRun) (url : String)
    (hinv : RecInv env run) :
    RecInv env (process_url env run url).run ∧
    (process_url env run url).run.scraper.text_content.length
      = (process_url env run url).run.scraper.text_hashes.length ∧
    (process_url env run url).run.records.Pairwise (fun a b => a.2 ≠ b.2) := by
  obtain ⟨h1, h2, h3⟩ := step_recinv url hinv
  refine ⟨⟨h1, h2, h3⟩, ?_, ?_⟩
  · rw [h1, h3]
    simp
  · exact records_snd_pairwise (h1 ▸ h2)

/-- Claim C10, witness: one iteration from the concrete mid-crawl state. -/
theorem c10_witness :
    RecInv demoEnv runC1 ∧
    (RecInv demoEnv (process_url demoEnv runC1 "https://example.com/c").run ∧
     (process_url demoEnv runC1 "https://example.com/c").run.scraper.text_content.length
       = (process_url demoEnv runC1 "https://example.com/c").run.scraper.text_hashes.length ∧
     (process_url demoEnv runC1 "https://example.com/c").run.records.Pairwise
       (fun a b => a.2 ≠ b.2)) :=
  ⟨⟨by decide, by decide, by decide⟩,
    c10_records_match_hashes demoEnv runC1 "https://example.com/c"
      ⟨by decide, by decide, by decide⟩⟩

/-- Claim C9: URL normalization removes exactly the query string and
fragment: (i) any two URLs whose parses agree on scheme, netloc, path and
params — in particular two URLs differing only in query and/or fragment —
normalize to identical strings; (ii) the normalized URL re-parses with
empty query and empty fragment; (iii) for URLs with a nonempty host, the
normalized URL re-parses to exactly the original scheme, host/port
(netloc), path and params.  `normalize_url` is a total Lean function
(malformed URLs are parsed best-effort), so there is no failure mode. -/
theorem c9_normalize_strips_query_fragment (u1 u2 u : String) :
    ((urlparse u1).scheme = (urlparse u2).scheme →
      (urlparse u1).netloc = (urlparse u2).netloc →
      (urlparse u1).path = (urlparse u2).path →
      (urlparse u1).params = (urlparse u2).params →
      normalize_url u1 = normalize_url u2) ∧
    ((urlparse (normalize_url u)).query = [] ∧
      (urlparse (normalize_url u)).fragment = []) ∧
    ((urlparse u).netloc ≠ [] →
      urlparse (normalize_url u) = { urlparse u with query := [], fragment := [] }) := by
  refine ⟨?_, ?_, ?_⟩
  · intro h1 h2 h3 h4
    have hrec : ({ urlparse u1 with query := [], fragment := [] } : URLParts)
        = { urlparse u2 with query := [], fragment := [] } := by
      rcases hp1 : urlparse u1 with ⟨s1, n1, p1, r1, q1, f1⟩
      rcases hp2 : urlparse u2 with ⟨s2, n2, p2, r2, q2, f2⟩
      rw [hp1, hp2] at h1 h2 h3 h4
      dsimp only at h1 h2 h3 h4
      rw [h1, h2, h3, h4]
    unfold normalize_url
    rw [hrec]
  · exact normalize_no_qf u.toList
  · intro hn
    exact urlparse_unparse_roundtrip u.toList hn

/-- Claim C9, witness: the two query-variants of `/a` normalize to the same
URL, and the normalization of a URL with query and fragment re-parses to
the cleared components. -/
theorem c9_witness :
    normalize_url "https://example.com/a?x=1" = normalize_url "https://example.com/a?x=2" ∧
    ((urlparse (normalize_url "https://example.com/a?x=1#sec")).query = [] ∧
     (urlparse (normalize_url "https://example.com/a?x=1#sec")).fragment = []) ∧
    urlparse (normalize_url "https://example.com/a?x=1#sec")
      = { urlparse "https://example.com/a?x=1#sec" with query := [], fragment := [] } ∧
    normalize_url "https://example.com/a?x=1" = "https://example.com/a" :=
  ⟨(c9_normalize_strips_query_fragment "https://example.com/a?x=1"
      "https://example.com/a?x=2" "x").1 rfl rfl rfl rfl,
   (c9_normalize_strips_query_fragment "x" "x" "https://example.com/a?x=1#sec").2.1,
   (c9_normalize_strips_query_fragment "x" "x" "https://example.com/a?x=1#sec").2.2
     (by decide),
   by decide⟩

end WebsiteScraper
